import Mathlib

/-!
Shallow embedding of `src/CCUtil.hpp` (connected-component labeling by
BFS flood fill over a 2D grid), together with proofs of the specified
properties.

Modelling conventions:
* `IntSizeType` (C++ `int`) is modelled by `Int`.  The algorithm's label
  arithmetic stays inside `[NOLABEL, 0]` (at most rows*cols increments from
  `labelStart`), so no wrap-around can occur and unbounded `Int` is faithful.
* `std::vector<int>` storage is a `List Int`; unchecked `operator[]`
  indexing is modelled by `List.getD` / `List.set` (out-of-range access is
  UB in C++ and never happens on the index ranges the algorithm uses,
  which is proved below).
* Exceptions (`throw std::runtime_error`) are modelled by `Except CCError`;
  the two distinct error messages of the source ("invalid size",
  "unsupported type") become the two constructors of `CCError`.
* The FIFO `std::queue<IntPair>` is a `List IntPair`: `push` appends at the
  back, `front`/`pop` take the head.
* An image together with its access policy (`SquareBracketAccess` /
  `RoundBracketAccess`) is an opaque value `img : ImgType` plus a read
  function `access : ImgType → Int → Int → α`.
-/

namespace CCL

/-- `IntPair` from the source: `std::pair<int, int>` as (row, column). -/
abbrev IntPair := Int × Int

/-- The two runtime errors thrown by `CCUtil.hpp`: `"invalid size"` and
`"unsupported type"`. -/
inductive CCError where
  | invalidDimension
  | unsupportedType
deriving DecidableEq, Repr

/-- Primary template `BinaryPredicate<ImgDT>`: always throws
`"unsupported type"`. -/
def BinaryPredicate.generic {α : Type} (_val : α) : Except CCError Bool :=
  .error .unsupportedType

/-- Specialization `BinaryPredicate<bool>`: the pixel value itself;
true indicates foreground, false indicates background. -/
def BinaryPredicate.bool (val : Bool) : Except CCError Bool :=
  .ok val

/-- Specialization `BinaryPredicate<char>`: the `char` value (an 8-bit
integer, modelled as `Int`) converted to `bool`, i.e. nonzero =
foreground. -/
def BinaryPredicate.char (val : Int) : Except CCError Bool :=
  .ok (decide (val ≠ 0))

/-- `SquareBracketAccess<ImgDT>`: reads `img[row][col]`.  With images
modelled as functions `Int → Int → α` this is function application. -/
def SquareBracketAccess {α : Type} (img : Int → Int → α) (row col : Int) : α :=
  img row col

/-- `RoundBracketAccess<ImgDT>`: reads `img(row, col)`; for function-valued
images it is again application. -/
def RoundBracketAccess {α : Type} (img : Int → Int → α) (row col : Int) : α :=
  img row col

/-- `Quick2DSizeT::NOLABEL = std::numeric_limits<int>::min()`. -/
def NOLABEL : Int := -(2 ^ 31)

/-- `Quick2DSizeT`: a flat `std::vector<int>` of labels plus the stored
column count; cell (row, col) lives at flat index `row * cols + col`. -/
structure Quick2DSizeT where
  cols : Int
  data : List Int
deriving DecidableEq, Repr

/-- The constructor `Quick2DSizeT(rows, cols)`: `data.resize(rows * cols,
NOLABEL)` and store `cols`.  Note there is no dimension check here; the
`rows * cols` int value is converted to the vector size (`Int.toNat`
models the int → size_t conversion for the values that occur). -/
def Quick2DSizeT.new (rows cols : Int) : Quick2DSizeT :=
  { cols := cols, data := List.replicate (rows * cols).toNat NOLABEL }

/-- `operator()(row, col)` used as an rvalue: unchecked flat read. -/
def Quick2DSizeT.get (g : Quick2DSizeT) (row col : Int) : Int :=
  g.data.getD (row * g.cols + col).toNat NOLABEL

/-- `operator()(row, col) = v`: unchecked flat write. -/
def Quick2DSizeT.set (g : Quick2DSizeT) (row col : Int) (v : Int) : Quick2DSizeT :=
  { g with data := g.data.set (row * g.cols + col).toNat v }

/-- `FourConnect::GetNeighbour`: the four axis-aligned neighbours in the
source's fixed order (down, right, up, left), unfiltered. -/
def FourConnect.GetNeighbour (pos : IntPair) : List IntPair :=
  [(pos.1 + 1, pos.2), (pos.1, pos.2 + 1), (pos.1 - 1, pos.2), (pos.1, pos.2 - 1)]

/-- `EightConnect::GetNeighbour`: nested loops over offsets `-1, 0, 1`
skipping `(0, 0)`, unfiltered. -/
def EightConnect.GetNeighbour (pos : IntPair) : List IntPair :=
  ([-1, 0, 1] : List Int).flatMap fun i =>
    ([-1, 0, 1] : List Int).filterMap fun j =>
      if i == j && i == 0 then none else some (pos.1 + i, pos.2 + j)

/-- `ConnectComponentFinder::labelStart = NOLABEL + 1`. -/
def labelStart : Int := NOLABEL + 1

/-- `ConnectComponentFinder::IsPixelPosValid`. -/
def IsPixelPosValid (size pos : IntPair) : Bool :=
  decide (pos.1 ≥ 0) && decide (pos.1 < size.1) &&
    decide (pos.2 ≥ 0) && decide (pos.2 < size.2)

/-- One iteration of the outer loop: the cells of row `i`, in column order. -/
def rowCells (cols : Int) (i : Nat) : List IntPair :=
  (List.range cols.toNat).map fun (j : Nat) => (((i : Nat) : Int), ((j : Nat) : Int))

/-- The coordinates visited by the double scan loop
`for i in [0, rows), for j in [0, cols)`, in row-major order.
A non-positive bound gives an empty loop, exactly as in C++. -/
def rowMajor (size : IntPair) : List IntPair :=
  (List.range size.1.toNat).flatMap (rowCells size.2)

/-- A coordinate is inside the grid (the proposition decided by
`IsPixelPosValid`). -/
def ValidPos (size p : IntPair) : Prop :=
  0 ≤ p.1 ∧ p.1 < size.1 ∧ 0 ≤ p.2 ∧ p.2 < size.2

theorem isPixelPosValid_iff {size p : IntPair} :
    IsPixelPosValid size p = true ↔ ValidPos size p := by
  simp [IsPixelPosValid, ValidPos, ge_iff_le, and_assoc]

/-- Well-formedness of the label storage for a given grid size: the stored
column count and the allocated length are the ones `find` creates. -/
def LSWF (size : IntPair) (g : Quick2DSizeT) : Prop :=
  g.cols = size.2 ∧ g.data.length = (size.1 * size.2).toNat

/-- Number of in-grid cells still holding `NOLABEL`; the termination
measure of the BFS queue drain. -/
def unlabeledCount (size : IntPair) (g : Quick2DSizeT) : Nat :=
  (rowMajor size).countP fun p => g.get p.1 p.2 == NOLABEL

/-- Row-major scan order on coordinates. -/
def scanLt (p q : IntPair) : Prop :=
  p.1 < q.1 ∨ (p.1 = q.1 ∧ p.2 < q.2)

theorem scanLt_irrefl (p : IntPair) : ¬ scanLt p p := by
  simp [scanLt]

theorem scanLt_asymm {p q : IntPair} (h : scanLt p q) : ¬ scanLt q p := by
  rcases h with h | ⟨h1, h2⟩ <;> rintro (h3 | ⟨h4, h5⟩) <;> omega

theorem scanLt_total {p q : IntPair} (h1 : ¬ scanLt p q) (h2 : ¬ scanLt q p) :
    p = q := by
  simp only [scanLt, not_or, not_and, not_lt] at h1 h2
  exact Prod.ext (by omega) (by omega)

theorem mem_rowCells {cols : Int} {i : Nat} {p : IntPair} :
    p ∈ rowCells cols i ↔ p.1 = (i : Int) ∧ 0 ≤ p.2 ∧ p.2 < cols := by
  unfold rowCells
  simp only [List.mem_map, List.mem_range]
  constructor
  · rintro ⟨j, hj, rfl⟩
    refine ⟨rfl, by simp, ?_⟩
    simp only
    omega
  · rintro ⟨h1, h2, h3⟩
    refine ⟨p.2.toNat, by omega, ?_⟩
    refine Prod.ext h1.symm ?_
    simp only
    omega

theorem rowCells_pairwise (cols : Int) (i : Nat) :
    (rowCells cols i).Pairwise scanLt := by
  unfold rowCells
  rw [List.pairwise_map]
  refine (List.pairwise_lt_range _).imp ?_
  intro a b h
  refine Or.inr ⟨rfl, ?_⟩
  simp only
  omega

theorem rowMajor_pairwise (size : IntPair) :
    (rowMajor size).Pairwise scanLt := by
  unfold rowMajor
  rw [List.pairwise_flatMap]
  refine ⟨fun a _ => rowCells_pairwise _ _, ?_⟩
  refine (List.pairwise_lt_range _).imp ?_
  intro a b h x hx y hy
  rw [mem_rowCells] at hx hy
  exact Or.inl (by omega)

theorem rowMajor_nodup (size : IntPair) : (rowMajor size).Nodup :=
  (rowMajor_pairwise size).imp fun h => by
    rintro rfl; exact scanLt_irrefl _ h

theorem mem_rowMajor {size p : IntPair} :
    p ∈ rowMajor size ↔ ValidPos size p := by
  unfold rowMajor ValidPos
  simp only [List.mem_flatMap, List.mem_range]
  constructor
  · rintro ⟨i, hi, hp⟩
    rw [mem_rowCells] at hp
    refine ⟨by omega, by omega, by omega, by omega⟩
  · rintro ⟨h1, h2, h3, h4⟩
    refine ⟨p.1.toNat, by omega, ?_⟩
    rw [mem_rowCells]
    refine ⟨by omega, h3, h4⟩

/-- Flat index of a valid cell is within the allocation. -/
theorem flatIdx_lt {size p : IntPair} (hp : ValidPos size p) :
    p.1 * size.2 + p.2 < size.1 * size.2 := by
  obtain ⟨h1, h2, h3, h4⟩ := hp
  calc p.1 * size.2 + p.2 < p.1 * size.2 + size.2 := by omega
    _ = (p.1 + 1) * size.2 := by ring
    _ ≤ size.1 * size.2 := mul_le_mul_of_nonneg_right (by omega) (by omega)

theorem flatIdx_nonneg {size p : IntPair} (hp : ValidPos size p) :
    0 ≤ p.1 * size.2 + p.2 := by
  obtain ⟨h1, h2, h3, h4⟩ := hp
  have := mul_nonneg h1 (by omega : (0:Int) ≤ size.2)
  omega

theorem flatIdx_inj {size p q : IntPair} (hp : ValidPos size p)
    (hq : ValidPos size q) (h : p.1 * size.2 + p.2 = q.1 * size.2 + q.2) :
    p = q := by
  obtain ⟨hp1, hp2, hp3, hp4⟩ := hp
  obtain ⟨hq1, hq2, hq3, hq4⟩ := hq
  have hrow : p.1 = q.1 := by
    rcases lt_trichotomy p.1 q.1 with hlt | heq | hgt
    · exfalso
      have : p.1 * size.2 + p.2 < q.1 * size.2 + q.2 := by
        calc p.1 * size.2 + p.2 < p.1 * size.2 + size.2 := by omega
          _ = (p.1 + 1) * size.2 := by ring
          _ ≤ q.1 * size.2 := mul_le_mul_of_nonneg_right (by omega) (by omega)
          _ ≤ q.1 * size.2 + q.2 := by omega
      omega
    · exact heq
    · exfalso
      have : q.1 * size.2 + q.2 < p.1 * size.2 + p.2 := by
        calc q.1 * size.2 + q.2 < q.1 * size.2 + size.2 := by omega
          _ = (q.1 + 1) * size.2 := by ring
          _ ≤ p.1 * size.2 := mul_le_mul_of_nonneg_right (by omega) (by omega)
          _ ≤ p.1 * size.2 + p.2 := by omega
      omega
  refine Prod.ext hrow ?_
  rw [hrow] at h
  omega

/-- Freshly constructed storage holds `NOLABEL` everywhere. -/
theorem Quick2DSizeT.get_new (rows cols i j : Int) :
    (Quick2DSizeT.new rows cols).get i j = NOLABEL := by
  unfold Quick2DSizeT.new Quick2DSizeT.get
  rw [List.getD_eq_getElem?_getD]
  rw [List.getElem?_replicate]
  split <;> rfl

theorem LSWF_new (size : IntPair) :
    LSWF size (Quick2DSizeT.new size.1 size.2) := by
  constructor <;> simp [Quick2DSizeT.new]

theorem LSWF_set {size : IntPair} {g : Quick2DSizeT} (h : LSWF size g)
    (r c v : Int) : LSWF size (g.set r c v) := by
  obtain ⟨h1, h2⟩ := h
  exact ⟨h1, by simp [Quick2DSizeT.set, h2]⟩

theorem Quick2DSizeT.get_set_self {size : IntPair} {g : Quick2DSizeT}
    (hwf : LSWF size g) {p : IntPair} (hp : ValidPos size p) (v : Int) :
    (g.set p.1 p.2 v).get p.1 p.2 = v := by
  obtain ⟨hc, hl⟩ := hwf
  unfold Quick2DSizeT.get Quick2DSizeT.set
  rw [List.getD_eq_getElem?_getD]
  rw [List.getElem?_set_self]
  · rfl
  · rw [hl, hc]
    have h1 := flatIdx_lt hp
    have h2 := flatIdx_nonneg hp
    omega

theorem Quick2DSizeT.get_set_ne {size : IntPair} {g : Quick2DSizeT}
    (hwf : LSWF size g) {p q : IntPair} (hp : ValidPos size p)
    (hq : ValidPos size q) (hne : p ≠ q) (v : Int) :
    (g.set p.1 p.2 v).get q.1 q.2 = g.get q.1 q.2 := by
  obtain ⟨hc, _⟩ := hwf
  unfold Quick2DSizeT.get Quick2DSizeT.set
  rw [List.getD_eq_getElem?_getD, List.getD_eq_getElem?_getD]
  rw [List.getElem?_set_ne]
  simp only
  rw [hc]
  have h1 := flatIdx_nonneg hp
  have h2 := flatIdx_nonneg hq
  intro hcontra
  exact hne (flatIdx_inj hp hq (by omega))

/-- The strict-decrease fact behind the BFS termination measure. -/
theorem countP_lt_of_flip {α : Type} {l : List α} {p q : α → Bool}
    (hmono : ∀ x ∈ l, q x = true → p x = true) (x : α) (hx : x ∈ l)
    (hpx : p x = true) (hqx : q x = false) :
    l.countP q < l.countP p := by
  obtain ⟨s, t, rfl⟩ := List.append_of_mem hx
  have hs : s.countP q ≤ s.countP p :=
    List.countP_mono_left fun y hy => hmono y (by simp [hy])
  have ht : t.countP q ≤ t.countP p :=
    List.countP_mono_left fun y hy => hmono y (by simp [hy])
  simp only [List.countP_append, List.countP_cons, hpx, hqx]
  simp
  omega

theorem unlabeledCount_lt {size : IntPair} {g : Quick2DSizeT}
    (hwf : LSWF size g) {p : IntPair} (hp : ValidPos size p)
    (hnl : g.get p.1 p.2 = NOLABEL) {v : Int} (hv : v ≠ NOLABEL) :
    unlabeledCount size (g.set p.1 p.2 v) < unlabeledCount size g := by
  unfold unlabeledCount
  refine countP_lt_of_flip ?_ p (mem_rowMajor.mpr hp) (by simp [hnl]) ?_
  · intro x hxmem hx
    by_cases hxp : x = p
    · subst hxp
      simp [Quick2DSizeT.get_set_self hwf hp] at hx
      exact absurd hx hv
    · rwa [Quick2DSizeT.get_set_ne hwf hp (mem_rowMajor.mp hxmem) (Ne.symm hxp)] at hx
  · simp [Quick2DSizeT.get_set_self hwf hp]
    exact hv

section Finder

variable {ImgType α : Type}
variable (access : ImgType → Int → Int → α) (img : ImgType)
variable (pred : α → Except CCError Bool)
variable (connect : IntPair → List IntPair)
variable (size : IntPair)

/-- The body of the inner `for (pixelPos : neighbour)` loop of
`ConnectComponentFinder::operator()`: each generated neighbour that is
in-grid, foreground and unlabeled is pushed on the queue and labeled at
push time. -/
def visitNeighbours (label : Int) :
    List IntPair → List IntPair → Quick2DSizeT →
      Except CCError (List IntPair × Quick2DSizeT)
  | [], q, ls => .ok (q, ls)
  | pixelPos :: rest, q, ls =>
    if IsPixelPosValid size pixelPos then
      match pred (access img pixelPos.1 pixelPos.2) with
      | .error e => .error e
      | .ok isFg =>
        if isFg && (ls.get pixelPos.1 pixelPos.2 == NOLABEL) then
          visitNeighbours label rest (q ++ [pixelPos])
            (ls.set pixelPos.1 pixelPos.2 label)
        else
          visitNeighbours label rest q ls
    else
      visitNeighbours label rest q ls

theorem visitNeighbours_wf {label : Int} {ns q q2 : List IntPair}
    {ls ls2 : Quick2DSizeT} (hwf : LSWF size ls)
    (h : visitNeighbours access img pred size label ns q ls = .ok (q2, ls2)) :
    LSWF size ls2 := by
  induction ns generalizing q ls with
  | nil =>
    simp only [visitNeighbours, Except.ok.injEq, Prod.mk.injEq] at h
    rw [← h.2]
    exact hwf
  | cons n rest ih =>
    rw [visitNeighbours] at h
    split at h
    · split at h
      · exact absurd h (by simp)
      · split at h
        · exact ih (LSWF_set hwf _ _ _) h
        · exact ih hwf h
    · exact ih hwf h

theorem visitNeighbours_measure {label : Int} (hl : label ≠ NOLABEL)
    {ns q q2 : List IntPair} {ls ls2 : Quick2DSizeT} (hwf : LSWF size ls)
    (h : visitNeighbours access img pred size label ns q ls = .ok (q2, ls2)) :
    unlabeledCount size ls2 + q2.length ≤ unlabeledCount size ls + q.length := by
  induction ns generalizing q ls with
  | nil =>
    simp only [visitNeighbours, Except.ok.injEq, Prod.mk.injEq] at h
    rw [← h.1, ← h.2]
  | cons n rest ih =>
    rw [visitNeighbours] at h
    split at h
    · rename_i hvalid
      split at h
      · exact absurd h (by simp)
      · rename_i isFg hpred
        split at h
        · rename_i hcond
          rw [Bool.and_eq_true, beq_iff_eq] at hcond
          have hvp : ValidPos size n := isPixelPosValid_iff.mp hvalid
          have hlt := unlabeledCount_lt hwf hvp hcond.2 hl
          have := ih (LSWF_set hwf _ _ _) h
          simp only [List.length_append, List.length_cons, List.length_nil] at *
          omega
        · have := ih hwf h
          omega
    · have := ih hwf h
      omega

/-- The `while (!myQueue.empty())` loop of `operator()`: repeatedly pop the
front of the FIFO queue and visit its neighbours.  The two proof arguments
(the current label is a real label, and the storage is the allocation made
by `operator()`) are exactly what makes the C++ loop terminate. -/
def drainQueue (label : Int) (hl : label ≠ NOLABEL) (q : List IntPair)
    (ls : Quick2DSizeT) (hwf : LSWF size ls) : Except CCError Quick2DSizeT :=
  match q with
  | [] => .ok ls
  | front :: rest =>
    match h : visitNeighbours access img pred size label (connect front) rest ls with
    | .error e => .error e
    | .ok (q2, ls2) =>
      drainQueue label hl q2 ls2 (visitNeighbours_wf access img pred size hwf h)
termination_by unlabeledCount size ls + q.length
decreasing_by
  have hm := visitNeighbours_measure access img pred size hl hwf h
  simp only [List.length_cons]
  omega

theorem drainQueue_wf {label : Int} {hl : label ≠ NOLABEL} {q : List IntPair}
    {ls : Quick2DSizeT} {hwf : LSWF size ls} {ls2 : Quick2DSizeT}
    (h : drainQueue access img pred connect size label hl q ls hwf = .ok ls2) :
    LSWF size ls2 := by
  induction q, ls, hwf using drainQueue.induct access img pred connect size label hl with
  | case1 ls hwf =>
    simp only [drainQueue, Except.ok.injEq] at h
    rw [← h]
    exact hwf
  | case2 ls hwf front rest e hvis =>
    rw [drainQueue] at h
    split at h
    · simp_all
    · rename_i q2 ls2a hvis2
      rw [hvis] at hvis2
      exact absurd hvis2 (by simp)
  | case3 ls hwf front rest q2 ls2a hvis ih =>
    rw [drainQueue] at h
    split at h
    · simp_all
    · rename_i q3 ls3 hvis2
      rw [hvis] at hvis2
      injection hvis2 with hv
      injection hv with hv1 hv2
      subst hv1
      subst hv2
      exact ih h

/-- The double scan loop of `operator()` ("mark connected components"),
restructured over the explicit row-major coordinate list.  Because the
queue is completely drained before the scan resumes, it is always empty at
the head of an iteration, so the seed branch is the only one in which the
`while` loop does any work; a foreground pixel that already has a label
leaves both the queue and `currentLabel` untouched (`enteredQueue` stays
false), exactly as in the source. -/
def markLoop (coords : List IntPair) (ls : Quick2DSizeT) (currentLabel : Int)
    (hl : NOLABEL < currentLabel) (hwf : LSWF size ls) :
    Except CCError (Quick2DSizeT × Int) :=
  match coords with
  | [] => .ok (ls, currentLabel)
  | p :: rest =>
    match pred (access img p.1 p.2) with
    | .error e => .error e
    | .ok isForeground =>
      if isForeground then
        if ls.get p.1 p.2 == NOLABEL then
          match h : drainQueue access img pred connect size currentLabel
              (by omega) [p] (ls.set p.1 p.2 currentLabel)
              (LSWF_set hwf p.1 p.2 currentLabel) with
          | .error e => .error e
          | .ok ls2 =>
            markLoop rest ls2 (currentLabel + 1) (by omega)
              (drainQueue_wf access img pred connect size h)
        else
          markLoop rest ls currentLabel hl hwf
      else
        markLoop rest ls currentLabel hl hwf

end Finder

/-- The final "scan labelStorage for result" loop of `operator()`: insert
every labeled cell, in row-major order, into the bucket of its label.
`result[index].insert` on a `std::set<IntPair>` is modelled by appending to
the bucket list: the scan enumerates cells in strictly increasing
`std::pair` order (which is the set's comparator), so the resulting list
is exactly the set's iteration order. -/
def collectResult (ls : Quick2DSizeT) :
    List IntPair → List (List IntPair) → List (List IntPair)
  | [], result => result
  | p :: rest, result =>
    if ls.get p.1 p.2 != NOLABEL then
      collectResult ls rest
        (result.set (ls.get p.1 p.2 - labelStart).toNat
          (result.getD (ls.get p.1 p.2 - labelStart).toNat [] ++ [p]))
    else
      collectResult ls rest result

section FinderMain

variable {ImgType α : Type}
variable (access : ImgType → Int → Int → α) (img : ImgType)
variable (pred : α → Except CCError Bool)
variable (connect : IntPair → List IntPair)
variable (size : IntPair)

/-- `ConnectComponentFinder::operator()(img, size)`. -/
def find : Except CCError (List (List IntPair)) :=
  if size.1 < 1 ∨ size.2 < 1 then
    .error .invalidDimension
  else
    match markLoop access img pred connect size (rowMajor size)
        (Quick2DSizeT.new size.1 size.2) labelStart
        (by unfold labelStart; omega) (LSWF_new size) with
    | .error e => .error e
    | .ok (labelStorage, currentLabel) =>
      .ok (collectResult labelStorage (rowMajor size)
        (List.replicate (currentLabel - labelStart).toNat []))

end FinderMain

/-- Modelled from the spec (§4.1 Label Grid): "`new(rows, cols)` allocates
rows×cols slots, all set to NO_LABEL; fails with InvalidDimension when
rows < 1 or cols < 1".  This is the contract the spec ascribes to the
constructor itself; it is compared against the source constructor
`Quick2DSizeT.new`, which performs no such check. -/
def Quick2DSizeTNewSpec (rows cols : Int) : Except CCError Quick2DSizeT :=
  if rows < 1 ∨ cols < 1 then .error .invalidDimension
  else .ok (Quick2DSizeT.new rows cols)

section ErrorLemmas

variable {ImgType α : Type}
variable (access : ImgType → Int → Int → α) (img : ImgType)
variable (pred : α → Except CCError Bool)
variable (connect : IntPair → List IntPair)
variable (size : IntPair)

theorem visitNeighbours_error {label : Int} {ns q : List IntPair}
    {ls : Quick2DSizeT} {e : CCError}
    (h : visitNeighbours access img pred size label ns q ls = .error e) :
    ∃ v, pred v = .error e := by
  induction ns generalizing q ls with
  | nil => simp [visitNeighbours] at h
  | cons n rest ih =>
    rw [visitNeighbours] at h
    split at h
    · split at h
      · rename_i e2 hpred
        injection h with h2
        subst h2
        exact ⟨_, hpred⟩
      · split at h
        · exact ih h
        · exact ih h
    · exact ih h

theorem drainQueue_error {label : Int} {hl : label ≠ NOLABEL}
    {q : List IntPair} {ls : Quick2DSizeT} {hwf : LSWF size ls} {e : CCError}
    (h : drainQueue access img pred connect size label hl q ls hwf = .error e) :
    ∃ v, pred v = .error e := by
  induction q, ls, hwf using drainQueue.induct access img pred connect size label hl with
  | case1 ls hwf => simp [drainQueue] at h
  | case2 front rest ls hwf e2 hvis =>
    rw [drainQueue] at h
    split at h
    · rename_i hvis2
      injection h with h2
      subst h2
      exact visitNeighbours_error access img pred size hvis2
    · rename_i q2 ls2 hvis2
      rw [hvis] at hvis2
      exact absurd hvis2 (by simp)
  | case3 ls hwf front rest q2 ls2 hvis ih =>
    rw [drainQueue] at h
    split at h
    · rename_i hvis2
      injection h with h2
      subst h2
      exact visitNeighbours_error access img pred size hvis2
    · rename_i q3 ls3 hvis2
      rw [hvis] at hvis2
      injection hvis2 with hv
      injection hv with hv1 hv2
      subst hv1
      subst hv2
      exact ih h

theorem markLoop_error {coords : List IntPair} {ls : Quick2DSizeT}
    {currentLabel : Int} {hl : NOLABEL < currentLabel} {hwf : LSWF size ls}
    {e : CCError}
    (h : markLoop access img pred connect size coords ls currentLabel hl hwf =
      .error e) :
    ∃ v, pred v = .error e := by
  induction coords generalizing ls currentLabel with
  | nil => simp [markLoop] at h
  | cons p rest ih =>
    rw [markLoop] at h
    split at h
    · rename_i e2 hpred
      injection h with h2
      subst h2
      exact ⟨_, hpred⟩
    · rename_i isFg hpred
      split at h
      · split at h
        · split at h
          · rename_i hdrain
            injection h with h2
            subst h2
            exact drainQueue_error access img pred connect size hdrain
          · exact ih h
        · exact ih h
      · exact ih h

/-- If the first scanned pixel classifies with an error, `find` propagates
that error. -/
theorem rowMajor_head {size : IntPair} (hr : 1 ≤ size.1) (hc : 1 ≤ size.2) :
    ∃ rest, rowMajor size = ((0 : Int), (0 : Int)) :: rest := by
  unfold rowMajor rowCells
  obtain ⟨k, hk⟩ : ∃ k, size.1.toNat = k + 1 := ⟨size.1.toNat - 1, by omega⟩
  obtain ⟨m, hm⟩ : ∃ m, size.2.toNat = m + 1 := ⟨size.2.toNat - 1, by omega⟩
  rw [hk, hm, List.range_succ_eq_map, List.range_succ_eq_map]
  simp only [List.flatMap_cons, List.map_cons]
  exact ⟨_, rfl⟩

end ErrorLemmas

section Semantics

variable {ImgType α : Type}
variable (access : ImgType → Int → Int → α) (img : ImgType)
variable (pred : α → Except CCError Bool)
variable (classify : α → Bool)
variable (connect : IntPair → List IntPair)
variable (size : IntPair)

/-- A coordinate is a foreground coordinate of the image: it lies inside
the grid and its pixel value classifies as foreground. -/
def isFg (p : IntPair) : Bool :=
  IsPixelPosValid size p && classify (access img p.1 p.2)

/-- One step of a foreground path: both endpoints are foreground and the
second is generated as a neighbour of the first by the connectivity
policy. -/
def adjStep (p q : IntPair) : Prop :=
  isFg access img classify size p = true ∧
    isFg access img classify size q = true ∧ q ∈ connect p

/-- There is a path of foreground coordinates from `p` to `q` in which
consecutive coordinates are neighbours under the connectivity policy. -/
def ReachFg (p q : IntPair) : Prop :=
  Relation.ReflTransGen (adjStep access img classify connect size) p q

theorem isFg_valid {p : IntPair}
    (h : isFg access img classify size p = true) : ValidPos size p := by
  rw [isFg, Bool.and_eq_true] at h
  exact isPixelPosValid_iff.mp h.1

theorem reachFg_symm
    (hsym : ∀ a b : IntPair, a ∈ connect b ↔ b ∈ connect a)
    {p q : IntPair} (h : ReachFg access img classify connect size p q) :
    ReachFg access img classify connect size q p := by
  refine Relation.ReflTransGen.symmetric ?_ h
  intro a b hab
  exact ⟨hab.2.1, hab.1, (hsym a b).mpr hab.2.2⟩

/-- Invariant of the BFS queue drain that labels one component.  `base` is
the label storage at the moment the seed was found (before the seed was
labeled), `label` the label being assigned, `q` the current queue
content. -/
structure DrainInv (label : Int) (seed : IntPair) (q : List IntPair)
    (ls base : Quick2DSizeT) : Prop where
  mono : ∀ p : IntPair, ValidPos size p → base.get p.1 p.2 ≠ NOLABEL →
    ls.get p.1 p.2 = base.get p.1 p.2
  newLab : ∀ p : IntPair, ValidPos size p → ls.get p.1 p.2 ≠ base.get p.1 p.2 →
    base.get p.1 p.2 = NOLABEL ∧ ls.get p.1 p.2 = label ∧
      isFg access img classify size p = true ∧
      ReachFg access img classify connect size seed p
  queue : ∀ p ∈ q, ValidPos size p ∧ isFg access img classify size p = true ∧
    ls.get p.1 p.2 = label ∧ ReachFg access img classify connect size seed p
  closed : ∀ p : IntPair, ValidPos size p → ls.get p.1 p.2 = label → p ∉ q →
    ∀ n ∈ connect p, isFg access img classify size n = true →
      ls.get n.1 n.2 ≠ NOLABEL
  seedLab : ls.get seed.1 seed.2 = label
  seedFg : isFg access img classify size seed = true

/-- Effect of one full neighbour sweep (the inner `for` loop) on the BFS
state. -/
theorem visitNeighbours_sem (hp : ∀ v, pred v = .ok (classify v))
    {label : Int} (hl : label ≠ NOLABEL) {seed f : IntPair}
    (hffg : isFg access img classify size f = true)
    (hf : ReachFg access img classify connect size seed f)
    {ns : List IntPair} (hns : ∀ n ∈ ns, n ∈ connect f)
    {q q2 : List IntPair} {ls ls2 : Quick2DSizeT} (hwf : LSWF size ls)
    (hq : ∀ p ∈ q, ValidPos size p ∧ isFg access img classify size p = true ∧
      ls.get p.1 p.2 = label ∧ ReachFg access img classify connect size seed p)
    (h : visitNeighbours access img pred size label ns q ls = .ok (q2, ls2)) :
    (∀ p : IntPair, ValidPos size p → ls.get p.1 p.2 ≠ NOLABEL →
      ls2.get p.1 p.2 = ls.get p.1 p.2) ∧
    (∀ p : IntPair, ValidPos size p → ls2.get p.1 p.2 ≠ ls.get p.1 p.2 →
      ls.get p.1 p.2 = NOLABEL ∧ ls2.get p.1 p.2 = label ∧
      isFg access img classify size p = true ∧
      ReachFg access img classify connect size seed p) ∧
    (∀ p ∈ q2, ValidPos size p ∧ isFg access img classify size p = true ∧
      ls2.get p.1 p.2 = label ∧
      ReachFg access img classify connect size seed p) ∧
    (∀ n ∈ ns, isFg access img classify size n = true →
      ls2.get n.1 n.2 ≠ NOLABEL) ∧
    (∀ p ∈ q, p ∈ q2) ∧
    (∀ p : IntPair, ValidPos size p → ls2.get p.1 p.2 ≠ ls.get p.1 p.2 →
      p ∈ q2) := by
  induction ns generalizing q ls with
  | nil =>
    simp only [visitNeighbours, Except.ok.injEq, Prod.mk.injEq] at h
    obtain ⟨rfl, rfl⟩ := h
    refine ⟨fun p _ _ => rfl, fun p _ hne => absurd rfl hne, hq,
      fun n hn => absurd hn (List.not_mem_nil n), fun p hp => hp,
      fun p _ hne => absurd rfl hne⟩
  | cons n rest ih =>
    rw [visitNeighbours] at h
    split at h
    · rename_i hvalid
      split at h
      · rename_i e hpe
        rw [hp] at hpe
        exact absurd hpe (by simp)
      · rename_i fgv hpe
        rw [hp] at hpe
        injection hpe with hfgv
        split at h
        · -- push branch: n is foreground and unlabeled
          rename_i hcond
          rw [Bool.and_eq_true, beq_iff_eq] at hcond
          obtain ⟨hfgn0, hnl⟩ := hcond
          have hnval : ValidPos size n := isPixelPosValid_iff.mp hvalid
          have hfgn : isFg access img classify size n = true := by
            rw [isFg, Bool.and_eq_true]
            exact ⟨hvalid, by rw [hfgv]; exact hfgn0⟩
          have hreachn : ReachFg access img classify connect size seed n :=
            hf.tail ⟨hffg, hfgn, hns n (List.mem_cons_self n rest)⟩
          have hwf2 := LSWF_set hwf n.1 n.2 label
          have hget_self := Quick2DSizeT.get_set_self hwf hnval label
          have hq2 : ∀ p ∈ q ++ [n], ValidPos size p ∧
              isFg access img classify size p = true ∧
              (ls.set n.1 n.2 label).get p.1 p.2 = label ∧
              ReachFg access img classify connect size seed p := by
            intro p hpmem
            rw [List.mem_append, List.mem_singleton] at hpmem
            rcases hpmem with hpq | rfl
            · obtain ⟨h1, h2, h3, h4⟩ := hq p hpq
              have hpn : p ≠ n := by
                rintro rfl
                rw [h3] at hnl
                exact hl hnl
              exact ⟨h1, h2, by
                rw [Quick2DSizeT.get_set_ne hwf hnval h1 (Ne.symm hpn)]
                exact h3, h4⟩
            · exact ⟨hnval, hfgn, hget_self, hreachn⟩
          obtain ⟨m1, m2, m3, m4, m5, m6⟩ :=
            ih (fun x hx => hns x (List.mem_cons_of_mem n hx)) hwf2 hq2 h
          have hchg : ∀ p : IntPair, ValidPos size p →
              (ls.set n.1 n.2 label).get p.1 p.2 ≠ ls.get p.1 p.2 → p = n := by
            intro p hpv hne
            by_contra hpn
            exact hne (Quick2DSizeT.get_set_ne hwf hnval hpv (Ne.symm hpn) label)
          refine ⟨?_, ?_, m3, ?_, ?_, ?_⟩
          · intro p hpv hpnl
            have hpn : p ≠ n := by
              rintro rfl
              exact hpnl hnl
            have hstep := Quick2DSizeT.get_set_ne hwf hnval hpv (Ne.symm hpn) label
            rw [← hstep] at hpnl ⊢
            exact m1 p hpv hpnl
          · intro p hpv hne
            by_cases hmid : (ls.set n.1 n.2 label).get p.1 p.2 = ls.get p.1 p.2
            · rw [← hmid] at hne ⊢
              exact m2 p hpv hne
            · have hpn := hchg p hpv hmid
              subst hpn
              refine ⟨hnl, ?_, hfgn, hreachn⟩
              rw [m1 p hpv (by rw [hget_self]; exact hl)]
              exact hget_self
          · intro x hx hfgx
            rcases List.mem_cons.mp hx with rfl | hxr
            · rw [m1 x hnval (by rw [hget_self]; exact hl), hget_self]
              exact hl
            · exact m4 x hxr hfgx
          · intro p hpq
            exact m5 p (by rw [List.mem_append]; exact Or.inl hpq)
          · intro p hpv hne
            by_cases hmid : ls2.get p.1 p.2 = (ls.set n.1 n.2 label).get p.1 p.2
            · rw [hmid] at hne
              have hpn := hchg p hpv hne
              subst hpn
              exact m5 p (by rw [List.mem_append, List.mem_singleton]; exact Or.inr rfl)
            · exact m6 p hpv hmid
        · -- skip branch: n is background or already labeled
          rename_i hcond
          obtain ⟨m1, m2, m3, m4, m5, m6⟩ :=
            ih (fun x hx => hns x (List.mem_cons_of_mem n hx)) hwf hq h
          refine ⟨m1, m2, m3, ?_, m5, m6⟩
          intro x hx hfgx
          rcases List.mem_cons.mp hx with rfl | hxr
          · have hxnl : ls.get x.1 x.2 ≠ NOLABEL := by
              intro hnl
              apply hcond
              rw [Bool.and_eq_true, beq_iff_eq]
              refine ⟨?_, hnl⟩
              rw [isFg, Bool.and_eq_true] at hfgx
              rw [← hfgv]
              exact hfgx.2
            rw [m1 x (isFg_valid access img classify size hfgx) hxnl]
            exact hxnl
          · exact m4 x hxr hfgx
    · -- out-of-grid neighbour: filtered before any access
      rename_i hvalid
      obtain ⟨m1, m2, m3, m4, m5, m6⟩ :=
        ih (fun x hx => hns x (List.mem_cons_of_mem n hx)) hwf hq h
      refine ⟨m1, m2, m3, ?_, m5, m6⟩
      intro x hx hfgx
      rcases List.mem_cons.mp hx with rfl | hxr
      · exfalso
        apply hvalid
        rw [isFg, Bool.and_eq_true] at hfgx
        exact hfgx.1
      · exact m4 x hxr hfgx

/-- Draining the queue to completion preserves the BFS invariant, ending
with an empty queue. -/
theorem drainQueue_inv (hp : ∀ v, pred v = .ok (classify v))
    {label : Int} {hl : label ≠ NOLABEL} {seed : IntPair}
    {q : List IntPair} {ls : Quick2DSizeT} {hwf : LSWF size ls}
    {base ls2 : Quick2DSizeT}
    (h : drainQueue access img pred connect size label hl q ls hwf = .ok ls2)
    (hinv : DrainInv access img classify connect size label seed q ls base) :
    DrainInv access img classify connect size label seed [] ls2 base := by
  induction q, ls, hwf using drainQueue.induct access img pred connect size label hl with
  | case1 ls hwf =>
    simp only [drainQueue, Except.ok.injEq] at h
    subst h
    exact hinv
  | case2 ls hwf front rest e hvis =>
    obtain ⟨v, hv⟩ := visitNeighbours_error access img pred size hvis
    rw [hp] at hv
    exact absurd hv (by simp)
  | case3 ls hwf front rest q2 ls2a hvis ih =>
    rw [drainQueue] at h
    split at h
    · rename_i hvis2
      rw [hvis] at hvis2
      exact absurd hvis2 (by simp)
    · rename_i q3 ls3 hvis2
      rw [hvis] at hvis2
      injection hvis2 with hv
      injection hv with hv1 hv2
      subst hv1
      subst hv2
      obtain ⟨hfval, hffg, hflab, hfreach⟩ :=
        hinv.queue front (List.mem_cons_self front rest)
      obtain ⟨m1, m2, m3, m4, m5, m6⟩ :=
        visitNeighbours_sem access img pred classify connect size hp hl hffg
          hfreach (fun n hn => hn) hwf
          (fun p hpr => hinv.queue p (List.mem_cons_of_mem front hpr)) hvis
      refine ih h ⟨?_, ?_, m3, ?_, ?_, hinv.seedFg⟩
      · intro p hpv hbase
        rw [m1 p hpv (by rw [hinv.mono p hpv hbase]; exact hbase)]
        exact hinv.mono p hpv hbase
      · intro p hpv hne
        by_cases hmid : ls.get p.1 p.2 = base.get p.1 p.2
        · rw [← hmid] at hne ⊢
          exact m2 p hpv hne
        · obtain ⟨b1, b2, b3, b4⟩ := hinv.newLab p hpv hmid
          refine ⟨b1, ?_, b3, b4⟩
          rw [m1 p hpv (by rw [b2]; exact hl)]
          exact b2
      · intro p hpv hplab hpq2 n hn hfgn
        by_cases hpf : p = front
        · subst hpf
          exact m4 n hn hfgn
        · by_cases hold : ls.get p.1 p.2 = label
          · have hprest : p ∉ rest := fun hr => hpq2 (m5 p hr)
            have hpq : p ∉ front :: rest := by
              rw [List.mem_cons, not_or]
              exact ⟨hpf, hprest⟩
            have hnl := hinv.closed p hpv hold hpq n hn hfgn
            rw [m1 n (isFg_valid access img classify size hfgn) hnl]
            exact hnl
          · exact absurd (m6 p hpv (by rw [hplab]; exact Ne.symm hold)) hpq2
      · rw [m1 seed (isFg_valid access img classify size hinv.seedFg)
          (by rw [hinv.seedLab]; exact hl)]
        exact hinv.seedLab

theorem visitNeighbours_total (hp : ∀ v, pred v = .ok (classify v))
    {label : Int} (ns q : List IntPair) (ls : Quick2DSizeT) :
    ∃ out, visitNeighbours access img pred size label ns q ls = .ok out := by
  induction ns generalizing q ls with
  | nil => exact ⟨(q, ls), rfl⟩
  | cons n rest ih =>
    rw [visitNeighbours]
    split
    · split
      · rename_i e he
        rw [hp] at he
        exact absurd he (by simp)
      · split
        · exact ih _ _
        · exact ih _ _
    · exact ih _ _

theorem drainQueue_total (hp : ∀ v, pred v = .ok (classify v))
    {label : Int} {hl : label ≠ NOLABEL} {q : List IntPair}
    {ls : Quick2DSizeT} {hwf : LSWF size ls} :
    ∃ out, drainQueue access img pred connect size label hl q ls hwf = .ok out := by
  induction q, ls, hwf using drainQueue.induct access img pred connect size label hl with
  | case1 ls hwf => exact ⟨ls, by rw [drainQueue]⟩
  | case2 ls hwf front rest e hvis =>
    obtain ⟨v, hv⟩ := visitNeighbours_error access img pred size hvis
    rw [hp] at hv
    exact absurd hv (by simp)
  | case3 ls hwf front rest q2 ls2a hvis ih =>
    obtain ⟨out, hout⟩ := ih
    refine ⟨out, ?_⟩
    rw [drainQueue]
    split
    · rename_i hvis2
      rw [hvis] at hvis2
      exact absurd hvis2 (by simp)
    · rename_i q3 ls3 hvis2
      rw [hvis] at hvis2
      injection hvis2 with hv
      injection hv with hv1 hv2
      subst hv1
      subst hv2
      exact hout

theorem markLoop_total (hp : ∀ v, pred v = .ok (classify v))
    {coords : List IntPair} {ls : Quick2DSizeT} {currentLabel : Int}
    {hl : NOLABEL < currentLabel} {hwf : LSWF size ls} :
    ∃ out, markLoop access img pred connect size coords ls currentLabel hl hwf =
      .ok out := by
  induction coords generalizing ls currentLabel hl hwf with
  | nil => exact ⟨(ls, currentLabel), by rw [markLoop]⟩
  | cons p rest ih =>
    rw [markLoop]
    split
    · rename_i e he
      rw [hp] at he
      exact absurd he (by simp)
    · rename_i fgv hpe
      split
      · split
        · split
          · rename_i e hdrain
            obtain ⟨ls3, hls3⟩ :=
              drainQueue_total access img pred classify connect size hp
            rw [hls3] at hdrain
            exact absurd hdrain (by simp)
          · exact ih
        · exact ih
      · exact ih

/-- Invariant of the outer row-major scan, between flood fills.  `done` is
the already-scanned prefix of the row-major coordinate list. -/
structure ScanInv (done : List IntPair) (ls : Quick2DSizeT)
    (currentLabel : Int) : Prop where
  range : ∀ p : IntPair, ValidPos size p → ls.get p.1 p.2 ≠ NOLABEL →
    isFg access img classify size p = true ∧ labelStart ≤ ls.get p.1 p.2 ∧
      ls.get p.1 p.2 < currentLabel
  closed : ∀ p : IntPair, ValidPos size p → ls.get p.1 p.2 ≠ NOLABEL →
    ∀ n ∈ connect p, isFg access img classify size n = true →
      ls.get n.1 n.2 = ls.get p.1 p.2
  scanned : ∀ p ∈ done, isFg access img classify size p = true →
    ls.get p.1 p.2 ≠ NOLABEL
  conn : ∀ p q : IntPair, ValidPos size p → ValidPos size q →
    ls.get p.1 p.2 = ls.get q.1 q.2 → ls.get p.1 p.2 ≠ NOLABEL →
    ReachFg access img classify connect size p q
  seeds : ∃ seedList : List IntPair,
    seedList.length = (currentLabel - labelStart).toNat ∧
    seedList.Pairwise scanLt ∧
    ∀ k (hk : k < seedList.length),
      isFg access img classify size (seedList.get ⟨k, hk⟩) = true ∧
      seedList.get ⟨k, hk⟩ ∈ done ∧
      ls.get (seedList.get ⟨k, hk⟩).1 (seedList.get ⟨k, hk⟩).2 = labelStart + k ∧
      ∀ p : IntPair, ValidPos size p → ls.get p.1 p.2 = labelStart + k →
        ¬ scanLt p (seedList.get ⟨k, hk⟩)

/-- The scan invariant holds at the start: fresh all-NOLABEL storage, no
scanned prefix, first label. -/
theorem scanInv_init :
    ScanInv access img classify connect size [] (Quick2DSizeT.new size.1 size.2)
      labelStart := by
  refine ⟨?_, ?_, ?_, ?_, ⟨[], by simp, List.Pairwise.nil, fun k hk => absurd hk (by simp)⟩⟩
  · intro p _ hnl
    exact absurd (Quick2DSizeT.get_new _ _ _ _) hnl
  · intro p _ hnl
    exact absurd (Quick2DSizeT.get_new _ _ _ _) hnl
  · intro p hp
    exact absurd hp (List.not_mem_nil p)
  · intro p q _ _ _ hnl
    exact absurd (Quick2DSizeT.get_new _ _ _ _) hnl

/-- Main induction for the outer scan: running `markLoop` on the remaining
coordinates carries the scan invariant to the end of the grid. -/
theorem markLoop_sem (hp : ∀ v, pred v = .ok (classify v))
    (hsym : ∀ a b : IntPair, a ∈ connect b ↔ b ∈ connect a)
    {done coords : List IntPair} {ls : Quick2DSizeT} {currentLabel : Int}
    {hl : NOLABEL < currentLabel} {hwf : LSWF size ls}
    {ls2 : Quick2DSizeT} {cur2 : Int}
    (hsplit : rowMajor size = done ++ coords)
    (hinv : ScanInv access img classify connect size done ls currentLabel)
    (h : markLoop access img pred connect size coords ls currentLabel hl hwf =
      .ok (ls2, cur2)) :
    currentLabel ≤ cur2 ∧
    ScanInv access img classify connect size (rowMajor size) ls2 cur2 := by
  induction coords generalizing done ls currentLabel hl hwf with
  | nil =>
    rw [markLoop] at h
    simp only [Except.ok.injEq, Prod.mk.injEq] at h
    obtain ⟨rfl, rfl⟩ := h
    rw [List.append_nil] at hsplit
    exact ⟨le_refl _, hsplit ▸ hinv⟩
  | cons p rest ih =>
    have hlsz : labelStart = NOLABEL + 1 := rfl
    have hpmem : p ∈ rowMajor size := by
      rw [hsplit, List.mem_append]
      exact Or.inr (List.mem_cons_self p rest)
    have hpval : ValidPos size p := mem_rowMajor.mp hpmem
    have hsplit2 : rowMajor size = (done ++ [p]) ++ rest := by
      rw [hsplit, List.append_assoc, List.singleton_append]
    have hcross : ∀ a ∈ done, ∀ b ∈ p :: rest, scanLt a b := by
      have := rowMajor_pairwise size
      rw [hsplit, List.pairwise_append] at this
      exact this.2.2
    have hrestLt : ∀ b ∈ rest, scanLt p b := by
      have := rowMajor_pairwise size
      rw [hsplit, List.pairwise_append, List.pairwise_cons] at this
      exact this.2.1.1
    rw [markLoop] at h
    split at h
    · rename_i e hpe
      rw [hp] at hpe
      exact absurd hpe (by simp)
    · rename_i fgv hpe
      rw [hp] at hpe
      injection hpe with hfgv
      split at h
      · -- p is foreground
        rename_i hfgvT
        have hpfg : isFg access img classify size p = true := by
          rw [isFg, Bool.and_eq_true]
          exact ⟨isPixelPosValid_iff.mpr hpval, by rw [hfgv]; exact hfgvT⟩
        split at h
        · -- p is an unlabeled seed: run the flood fill
          rename_i hnlb
          have hnl : ls.get p.1 p.2 = NOLABEL := by rwa [beq_iff_eq] at hnlb
          split at h
          · rename_i e hdrain
            obtain ⟨v, hv⟩ := drainQueue_error access img pred connect size hdrain
            rw [hp] at hv
            exact absurd hv (by simp)
          · rename_i lsd hdrain
            have hcne : currentLabel ≠ NOLABEL := by omega
            have hinit : DrainInv access img classify connect size currentLabel p
                [p] (ls.set p.1 p.2 currentLabel) ls := by
              refine ⟨?_, ?_, ?_, ?_, ?_, hpfg⟩
              · intro x hxv hxnl
                have hxp : x ≠ p := by
                  rintro rfl
                  exact hxnl hnl
                exact Quick2DSizeT.get_set_ne hwf hpval hxv (Ne.symm hxp) _
              · intro x hxv hchg
                have hxp : x = p := by
                  by_contra hxp
                  exact hchg (Quick2DSizeT.get_set_ne hwf hpval hxv (Ne.symm hxp) _)
                subst hxp
                exact ⟨hnl, Quick2DSizeT.get_set_self hwf hpval _, hpfg,
                  Relation.ReflTransGen.refl⟩
              · intro x hx
                rw [List.mem_singleton] at hx
                subst hx
                exact ⟨hpval, hpfg, Quick2DSizeT.get_set_self hwf hpval _,
                  Relation.ReflTransGen.refl⟩
              · intro x hxv hxlab hxq
                exfalso
                have hxp : x ≠ p := by
                  rintro rfl
                  exact hxq (List.mem_singleton_self x)
                rw [Quick2DSizeT.get_set_ne hwf hpval hxv (Ne.symm hxp) _] at hxlab
                have := (hinv.range x hxv (by rw [hxlab]; exact hcne)).2.2
                omega
              · exact Quick2DSizeT.get_set_self hwf hpval _
            have dinv := drainQueue_inv access img pred classify connect size hp
              hdrain hinit
            have hdseed : lsd.get p.1 p.2 = currentLabel := dinv.seedLab
            have hnew : ∀ x : IntPair, ValidPos size x →
                lsd.get x.1 x.2 = currentLabel →
                ls.get x.1 x.2 = NOLABEL ∧ isFg access img classify size x = true ∧
                ReachFg access img classify connect size p x := by
              intro x hxv hx
              by_cases he : lsd.get x.1 x.2 = ls.get x.1 x.2
              · exfalso
                rw [hx] at he
                have := (hinv.range x hxv (by rw [← he]; exact hcne)).2.2
                omega
              · obtain ⟨b1, _, b3, b4⟩ := dinv.newLab x hxv he
                exact ⟨b1, b3, b4⟩
            have hold : ∀ x : IntPair, ValidPos size x →
                lsd.get x.1 x.2 ≠ currentLabel →
                lsd.get x.1 x.2 = ls.get x.1 x.2 := by
              intro x hxv hx
              by_contra he
              exact hx (dinv.newLab x hxv he).2.1
            have hd_closed : ∀ x : IntPair, ValidPos size x →
                lsd.get x.1 x.2 = currentLabel →
                ∀ n ∈ connect x, isFg access img classify size n = true →
                  lsd.get n.1 n.2 ≠ NOLABEL := by
              intro x hxv hxl
              exact dinv.closed x hxv hxl (List.not_mem_nil x)
            obtain ⟨sl, hslen, hspw, hsprops⟩ := hinv.seeds
            have hstart_le : labelStart ≤ currentLabel := by omega
            have hnext : ScanInv access img classify connect size (done ++ [p])
                lsd (currentLabel + 1) := by
              refine ⟨?_, ?_, ?_, ?_, ?_⟩
              · -- range
                intro x hxv hxnl
                by_cases hx : lsd.get x.1 x.2 = currentLabel
                · exact ⟨(hnew x hxv hx).2.1, by omega, by omega⟩
                · rw [hold x hxv hx] at hxnl ⊢
                  obtain ⟨c1, c2, c3⟩ := hinv.range x hxv hxnl
                  exact ⟨c1, c2, by omega⟩
              · -- closed classes
                intro x hxv hxnl n hn hfgn
                by_cases hx : lsd.get x.1 x.2 = currentLabel
                · have hnnl := hd_closed x hxv hx n hn hfgn
                  by_cases hnc : lsd.get n.1 n.2 = currentLabel
                  · rw [hnc, hx]
                  · exfalso
                    have hnold := hold n (isFg_valid access img classify size hfgn) hnc
                    rw [hnold] at hnnl
                    obtain ⟨hxnl0, hxfg, _⟩ := hnew x hxv hx
                    have := hinv.closed n (isFg_valid access img classify size hfgn)
                      hnnl x ((hsym x n).mpr hn) hxfg
                    rw [hxnl0] at this
                    exact hnnl this.symm
                · have hxold := hold x hxv hx
                  rw [hxold] at hxnl
                  have hstep := hinv.closed x hxv hxnl n hn hfgn
                  have hnnl : ls.get n.1 n.2 ≠ NOLABEL := by
                    rw [hstep]
                    exact hxnl
                  have hnold : lsd.get n.1 n.2 = ls.get n.1 n.2 :=
                    dinv.mono n (isFg_valid access img classify size hfgn) hnnl
                  rw [hnold, hxold, hstep]
              · -- scanned prefix labeled
                intro x hx hfgx
                rw [List.mem_append, List.mem_singleton] at hx
                rcases hx with hx | rfl
                · have hxnl := hinv.scanned x hx hfgx
                  rw [dinv.mono x (isFg_valid access img classify size hfgx) hxnl]
                  exact hxnl
                · rw [hdseed]
                  exact hcne
              · -- same label implies connected
                intro x y hxv hyv heq hxnl
                by_cases hx : lsd.get x.1 x.2 = currentLabel
                · have hy : lsd.get y.1 y.2 = currentLabel := by rw [← heq]; exact hx
                  obtain ⟨_, _, hrx⟩ := hnew x hxv hx
                  obtain ⟨_, _, hry⟩ := hnew y hyv hy
                  exact (reachFg_symm access img classify connect size hsym hrx).trans hry
                · have hy : lsd.get y.1 y.2 ≠ currentLabel := by rw [← heq]; exact hx
                  have hxold := hold x hxv hx
                  have hyold := hold y hyv hy
                  rw [hxold] at heq hxnl
                  rw [hyold] at heq
                  exact hinv.conn x y hxv hyv heq hxnl
              · -- seed list grows by p
                refine ⟨sl ++ [p], by simp [hslen]; omega, ?_, ?_⟩
                · rw [List.pairwise_append]
                  refine ⟨hspw, List.pairwise_singleton _ _, ?_⟩
                  intro a ha b hb
                  rw [List.mem_singleton] at hb
                  obtain ⟨⟨k, hk⟩, rfl⟩ := List.mem_iff_get.mp ha
                  rw [hb]
                  exact hcross _ (hsprops k hk).2.1 p (List.mem_cons_self p rest)
                · intro k hk
                  rw [List.length_append, List.length_singleton] at hk
                  by_cases hks : k < sl.length
                  · have hgk : (sl ++ [p]).get ⟨k, by simp; omega⟩ =
                        sl.get ⟨k, hks⟩ := by
                      simp [List.get_eq_getElem, List.getElem_append_left hks]
                    rw [hgk]
                    obtain ⟨e1, e2, e3, e4⟩ := hsprops k hks
                    have hlabne : labelStart + (k : Int) ≠ NOLABEL := by omega
                    refine ⟨e1, by rw [List.mem_append]; exact Or.inl e2, ?_, ?_⟩
                    · rw [dinv.mono _ (isFg_valid access img classify size e1)
                        (by rw [e3]; exact hlabne)]
                      exact e3
                    · intro x hxv hxl
                      have hkcur : labelStart + (k : Int) ≠ currentLabel := by omega
                      have hxcur : lsd.get x.1 x.2 ≠ currentLabel := by
                        rw [hxl]; exact hkcur
                      rw [hold x hxv hxcur] at hxl
                      exact e4 x hxv hxl
                  · have hkeq : k = sl.length := by omega
                    subst hkeq
                    have hgk : (sl ++ [p]).get ⟨sl.length, by simp⟩ = p := by
                      simp [List.get_eq_getElem]
                    rw [hgk]
                    have hcureq : labelStart + (sl.length : Int) = currentLabel := by
                      omega
                    refine ⟨hpfg,
                      (by rw [List.mem_append, List.mem_singleton]; exact Or.inr rfl),
                      (by rw [hdseed, hcureq]), ?_⟩
                    intro x hxv hxl
                    rw [hcureq] at hxl
                    obtain ⟨hx0, hxfg, _⟩ := hnew x hxv hxl
                    intro hscan
                    have hxmem : x ∈ rowMajor size := mem_rowMajor.mpr hxv
                    rw [hsplit, List.mem_append] at hxmem
                    rcases hxmem with hxd | hxr
                    · exact hinv.scanned x hxd hxfg hx0
                    · rcases List.mem_cons.mp hxr with rfl | hxr2
                      · exact scanLt_irrefl x hscan
                      · exact scanLt_asymm (hrestLt x hxr2) hscan
            obtain ⟨hle2, hfin⟩ := ih hsplit2 hnext h
            exact ⟨by omega, hfin⟩
        · -- p is foreground but already labeled: nothing changes
          rename_i hnlb
          have hlab : ls.get p.1 p.2 ≠ NOLABEL := by
            intro hc
            exact hnlb (by rw [hc]; simp)
          have hnext : ScanInv access img classify connect size (done ++ [p])
              ls currentLabel := by
            refine ⟨hinv.range, hinv.closed, ?_, hinv.conn, ?_⟩
            · intro x hx hfgx
              rw [List.mem_append, List.mem_singleton] at hx
              rcases hx with hx | rfl
              · exact hinv.scanned x hx hfgx
              · exact hlab
            · obtain ⟨sl, hslen, hspw, hsprops⟩ := hinv.seeds
              refine ⟨sl, hslen, hspw, fun k hk => ?_⟩
              obtain ⟨e1, e2, e3, e4⟩ := hsprops k hk
              exact ⟨e1, by rw [List.mem_append]; exact Or.inl e2, e3, e4⟩
          exact ih hsplit2 hnext h
      · -- p is background: nothing changes
        rename_i hfgvF
        have hnext : ScanInv access img classify connect size (done ++ [p])
            ls currentLabel := by
          refine ⟨hinv.range, hinv.closed, ?_, hinv.conn, ?_⟩
          · intro x hx hfgx
            rw [List.mem_append, List.mem_singleton] at hx
            rcases hx with hx | rfl
            · exact hinv.scanned x hx hfgx
            · exfalso
              apply hfgvF
              rw [isFg, Bool.and_eq_true] at hfgx
              rw [← hfgv]
              exact hfgx.2
          · obtain ⟨sl, hslen, hspw, hsprops⟩ := hinv.seeds
            refine ⟨sl, hslen, hspw, fun k hk => ?_⟩
            obtain ⟨e1, e2, e3, e4⟩ := hsprops k hk
            exact ⟨e1, by rw [List.mem_append]; exact Or.inl e2, e3, e4⟩
        exact ih hsplit2 hnext h

end Semantics

theorem NOLABEL_lt_labelStart : NOLABEL < labelStart := by
  unfold labelStart
  omega

section Instrumented

variable {ImgType α : Type}
variable (access : ImgType → Int → Int → α) (img : ImgType)
variable (pred : α → Except CCError Bool)
variable (connect : IntPair → List IntPair)
variable (size : IntPair)

/-- `visitNeighbours` instrumented with a ghost trace that records, in
order, every coordinate pushed onto the FIFO queue.  The computation is
otherwise identical (see `visitNeighboursT_proj`). -/
def visitNeighboursT (label : Int) :
    List IntPair → List IntPair → Quick2DSizeT → List IntPair →
      Except CCError (List IntPair × Quick2DSizeT × List IntPair)
  | [], q, ls, tr => .ok (q, ls, tr)
  | pixelPos :: rest, q, ls, tr =>
    if IsPixelPosValid size pixelPos then
      match pred (access img pixelPos.1 pixelPos.2) with
      | .error e => .error e
      | .ok isFg =>
        if isFg && (ls.get pixelPos.1 pixelPos.2 == NOLABEL) then
          visitNeighboursT label rest (q ++ [pixelPos])
            (ls.set pixelPos.1 pixelPos.2 label) (tr ++ [pixelPos])
        else
          visitNeighboursT label rest q ls tr
    else
      visitNeighboursT label rest q ls tr

theorem visitNeighboursT_proj {label : Int} {ns q q2 tr tr2 : List IntPair}
    {ls ls2 : Quick2DSizeT}
    (h : visitNeighboursT access img pred size label ns q ls tr =
      .ok (q2, ls2, tr2)) :
    visitNeighbours access img pred size label ns q ls = .ok (q2, ls2) := by
  induction ns generalizing q ls tr with
  | nil =>
    simp only [visitNeighboursT, Except.ok.injEq, Prod.mk.injEq] at h
    rw [visitNeighbours, h.1, h.2.1]
  | cons n rest ih =>
    rw [visitNeighboursT] at h
    rw [visitNeighbours]
    split at h
    · rename_i hvalid
      rw [if_pos hvalid]
      split at h
      · exact absurd h (by simp)
      · rename_i fgv hpe
        split at h
        · rename_i hcond
          rw [if_pos hcond]
          exact ih h
        · rename_i hcond
          rw [if_neg hcond]
          exact ih h
    · rename_i hvalid
      rw [if_neg hvalid]
      exact ih h

/-- `drainQueue` instrumented with the enqueue trace. -/
def drainQueueT (label : Int) (hl : label ≠ NOLABEL) (q : List IntPair)
    (ls : Quick2DSizeT) (hwf : LSWF size ls) (tr : List IntPair) :
    Except CCError (Quick2DSizeT × List IntPair) :=
  match q with
  | [] => .ok (ls, tr)
  | front :: rest =>
    match h : visitNeighboursT access img pred size label (connect front)
        rest ls tr with
    | .error e => .error e
    | .ok (q2, ls2, tr2) =>
      drainQueueT label hl q2 ls2
        (visitNeighbours_wf access img pred size hwf (visitNeighboursT_proj access img pred size h))
        tr2
termination_by unlabeledCount size ls + q.length
decreasing_by
  have hm := visitNeighbours_measure access img pred size hl hwf
    (visitNeighboursT_proj access img pred size h)
  simp only [List.length_cons]
  omega

theorem drainQueueT_proj {label : Int} {hl : label ≠ NOLABEL}
    {q tr tr2 : List IntPair} {ls : Quick2DSizeT} {hwf : LSWF size ls}
    {ls2 : Quick2DSizeT}
    (h : drainQueueT access img pred connect size label hl q ls hwf tr =
      .ok (ls2, tr2)) :
    drainQueue access img pred connect size label hl q ls hwf = .ok ls2 := by
  induction q, ls, hwf, tr using drainQueueT.induct access img pred connect size label hl with
  | case1 ls hwf tr =>
    simp only [drainQueueT, Except.ok.injEq, Prod.mk.injEq] at h
    rw [drainQueue, h.1]
  | case2 ls hwf tr front rest e hvis =>
    rw [drainQueueT] at h
    split at h
    · simp at h
    · rename_i q3 ls3 tr3 hvis2
      rw [hvis] at hvis2
      exact absurd hvis2 (by simp)
  | case3 ls hwf tr front rest q2 ls2a tr2a hvis ih =>
    rw [drainQueueT] at h
    rw [drainQueue]
    split at h
    · rename_i hvis2
      rw [hvis] at hvis2
      exact absurd hvis2 (by simp)
    · rename_i q3 ls3 tr3 hvis2
      rw [hvis] at hvis2
      injection hvis2 with hv
      injection hv with hv1 hv
      injection hv with hv2 hv3
      subst hv1
      subst hv2
      subst hv3
      split
      · rename_i hvp
        rw [visitNeighboursT_proj access img pred size hvis] at hvp
        exact absurd hvp (by simp)
      · rename_i q4 ls4 hvp
        rw [visitNeighboursT_proj access img pred size hvis] at hvp
        injection hvp with hv
        injection hv with hv1 hv2
        subst hv1
        subst hv2
        exact ih h

/-- `markLoop` instrumented with the enqueue trace (seeds are pushed too,
exactly as in the source). -/
def markLoopT (coords : List IntPair) (ls : Quick2DSizeT) (currentLabel : Int)
    (hl : NOLABEL < currentLabel) (hwf : LSWF size ls) (tr : List IntPair) :
    Except CCError (Quick2DSizeT × Int × List IntPair) :=
  match coords with
  | [] => .ok (ls, currentLabel, tr)
  | p :: rest =>
    match pred (access img p.1 p.2) with
    | .error e => .error e
    | .ok isForeground =>
      if isForeground then
        if ls.get p.1 p.2 == NOLABEL then
          match h : drainQueueT access img pred connect size currentLabel
              (by omega) [p] (ls.set p.1 p.2 currentLabel)
              (LSWF_set hwf p.1 p.2 currentLabel) (tr ++ [p]) with
          | .error e => .error e
          | .ok (ls2, tr2) =>
            markLoopT rest ls2 (currentLabel + 1) (by omega)
              (drainQueue_wf access img pred connect size
                (drainQueueT_proj access img pred connect size h)) tr2
        else
          markLoopT rest ls currentLabel hl hwf tr
      else
        markLoopT rest ls currentLabel hl hwf tr

theorem markLoopT_proj {coords tr tr2 : List IntPair} {ls : Quick2DSizeT}
    {currentLabel : Int} {hl : NOLABEL < currentLabel} {hwf : LSWF size ls}
    {ls2 : Quick2DSizeT} {cur2 : Int}
    (h : markLoopT access img pred connect size coords ls currentLabel hl hwf tr =
      .ok (ls2, cur2, tr2)) :
    markLoop access img pred connect size coords ls currentLabel hl hwf =
      .ok (ls2, cur2) := by
  induction coords generalizing ls currentLabel hl hwf tr with
  | nil =>
    simp only [markLoopT, Except.ok.injEq, Prod.mk.injEq] at h
    rw [markLoop, h.1, h.2.1]
  | cons p rest ih =>
    rw [markLoopT] at h
    rw [markLoop]
    split at h
    · exact absurd h (by simp)
    · rename_i fgv hpe
      split at h
      · rename_i hfgv
        rw [if_pos hfgv]
        split at h
        · rename_i hnlb
          rw [if_pos hnlb]
          split at h
          · exact absurd h (by simp)
          · rename_i ls3 tr3 hdrainT
            have hdrain := drainQueueT_proj access img pred connect size hdrainT
            split
            · rename_i e hdrain2
              rw [hdrain] at hdrain2
              exact absurd hdrain2 (by simp)
            · rename_i ls4 hdrain2
              rw [hdrain] at hdrain2
              injection hdrain2 with hv
              subst hv
              exact ih h
        · rename_i hnlb
          rw [if_neg hnlb]
          exact ih h
      · rename_i hfgv
        rw [if_neg hfgv]
        exact ih h

/-- A label slot that already holds a real label is never changed by the
neighbour sweep: only NOLABEL slots are written. -/
theorem visitNeighbours_mono {label : Int} {ns q q2 : List IntPair}
    {ls ls2 : Quick2DSizeT} (hwf : LSWF size ls)
    (h : visitNeighbours access img pred size label ns q ls = .ok (q2, ls2)) :
    ∀ x : IntPair, ValidPos size x → ls.get x.1 x.2 ≠ NOLABEL →
      ls2.get x.1 x.2 = ls.get x.1 x.2 := by
  induction ns generalizing q ls with
  | nil =>
    simp only [visitNeighbours, Except.ok.injEq, Prod.mk.injEq] at h
    obtain ⟨rfl, rfl⟩ := h
    exact fun x _ _ => rfl
  | cons n rest ih =>
    rw [visitNeighbours] at h
    split at h
    · rename_i hvalid
      split at h
      · exact absurd h (by simp)
      · rename_i fgv hpe
        split at h
        · rename_i hcond
          rw [Bool.and_eq_true, beq_iff_eq] at hcond
          have hnval : ValidPos size n := isPixelPosValid_iff.mp hvalid
          intro x hxv hxnl
          have hxn : x ≠ n := by
            rintro rfl
            exact hxnl hcond.2
          have hstep := Quick2DSizeT.get_set_ne hwf hnval hxv (Ne.symm hxn) label
          rw [← hstep] at hxnl ⊢
          exact ih (LSWF_set hwf _ _ _) h x hxv hxnl
        · exact ih hwf h
    · exact ih hwf h

/-- Draining the queue never resets or overwrites a labeled slot. -/
theorem drainQueue_mono {label : Int} {hl : label ≠ NOLABEL}
    {q : List IntPair} {ls : Quick2DSizeT} {hwf : LSWF size ls}
    {ls2 : Quick2DSizeT}
    (h : drainQueue access img pred connect size label hl q ls hwf = .ok ls2) :
    ∀ x : IntPair, ValidPos size x → ls.get x.1 x.2 ≠ NOLABEL →
      ls2.get x.1 x.2 = ls.get x.1 x.2 := by
  induction q, ls, hwf using drainQueue.induct access img pred connect size label hl with
  | case1 ls hwf =>
    simp only [drainQueue, Except.ok.injEq] at h
    subst h
    exact fun x _ _ => rfl
  | case2 ls hwf front rest e hvis =>
    rw [drainQueue] at h
    split at h
    · simp at h
    · rename_i q3 ls3 hvis2
      rw [hvis] at hvis2
      exact absurd hvis2 (by simp)
  | case3 ls hwf front rest q2 ls2a hvis ih =>
    rw [drainQueue] at h
    split at h
    · rename_i hvis2
      rw [hvis] at hvis2
      exact absurd hvis2 (by simp)
    · rename_i q3 ls3 hvis2
      rw [hvis] at hvis2
      injection hvis2 with hv
      injection hv with hv1 hv2
      subst hv1
      subst hv2
      intro x hxv hxnl
      have hstep := visitNeighbours_mono access img pred size hwf hvis x hxv hxnl
      rw [← hstep] at hxnl ⊢
      exact ih h x hxv hxnl

/-- The whole scan never resets or overwrites a labeled slot: once a cell
is assigned a real label, it keeps exactly that label to the end. -/
theorem markLoop_mono {coords : List IntPair} {ls : Quick2DSizeT}
    {currentLabel : Int} {hl : NOLABEL < currentLabel} {hwf : LSWF size ls}
    {ls2 : Quick2DSizeT} {cur2 : Int}
    (hcoords : ∀ p ∈ coords, ValidPos size p)
    (h : markLoop access img pred connect size coords ls currentLabel hl hwf =
      .ok (ls2, cur2)) :
    ∀ x : IntPair, ValidPos size x → ls.get x.1 x.2 ≠ NOLABEL →
      ls2.get x.1 x.2 = ls.get x.1 x.2 := by
  induction coords generalizing ls currentLabel hl hwf with
  | nil =>
    rw [markLoop] at h
    simp only [Except.ok.injEq, Prod.mk.injEq] at h
    obtain ⟨rfl, rfl⟩ := h
    exact fun x _ _ => rfl
  | cons p rest ih =>
    have hpval : ValidPos size p := hcoords p (List.mem_cons_self p rest)
    have hcoords2 : ∀ x ∈ rest, ValidPos size x :=
      fun x hx => hcoords x (List.mem_cons_of_mem p hx)
    rw [markLoop] at h
    split at h
    · exact absurd h (by simp)
    · rename_i fgv hpe
      split at h
      · split at h
        · rename_i hnlb
          have hnl : ls.get p.1 p.2 = NOLABEL := by rwa [beq_iff_eq] at hnlb
          split at h
          · exact absurd h (by simp)
          · rename_i lsd hdrain
            intro x hxv hxnl
            have hxp : x ≠ p := by
              rintro rfl
              exact hxnl hnl
            have hstep1 := Quick2DSizeT.get_set_ne hwf hpval hxv
              (Ne.symm hxp) currentLabel
            have hstep2 := drainQueue_mono access img pred connect size hdrain
              x hxv (by rw [hstep1]; exact hxnl)
            rw [hstep1] at hstep2
            rw [← hstep2] at hxnl ⊢
            exact ih hcoords2 h x hxv hxnl
        · exact ih hcoords2 h
      · exact ih hcoords2 h

/-- Trace invariant: every enqueued coordinate is in-grid and carries a
real label from the moment it is pushed, and no coordinate is pushed
twice (a push labels a NOLABEL cell, so a second push of the same cell is
impossible). -/
theorem visitNeighboursT_trace {label : Int} (hl : label ≠ NOLABEL)
    {ns q q2 tr tr2 : List IntPair} {ls ls2 : Quick2DSizeT}
    (hwf : LSWF size ls)
    (h : visitNeighboursT access img pred size label ns q ls tr =
      .ok (q2, ls2, tr2))
    (hinv : (∀ x ∈ tr, ValidPos size x ∧ ls.get x.1 x.2 ≠ NOLABEL) ∧ tr.Nodup) :
    (∀ x ∈ tr2, ValidPos size x ∧ ls2.get x.1 x.2 ≠ NOLABEL) ∧ tr2.Nodup := by
  induction ns generalizing q ls tr with
  | nil =>
    simp only [visitNeighboursT, Except.ok.injEq, Prod.mk.injEq] at h
    obtain ⟨rfl, rfl, rfl⟩ := h
    exact hinv
  | cons n rest ih =>
    rw [visitNeighboursT] at h
    split at h
    · rename_i hvalid
      split at h
      · exact absurd h (by simp)
      · rename_i fgv hpe
        split at h
        · rename_i hcond
          rw [Bool.and_eq_true, beq_iff_eq] at hcond
          have hnval : ValidPos size n := isPixelPosValid_iff.mp hvalid
          have hnmem : n ∉ tr := by
            intro hn
            exact (hinv.1 n hn).2 hcond.2
          refine ih (LSWF_set hwf _ _ _) h ⟨?_, ?_⟩
          · intro x hx
            rw [List.mem_append, List.mem_singleton] at hx
            rcases hx with hx | rfl
            · obtain ⟨hxv, hxnl⟩ := hinv.1 x hx
              have hxn : x ≠ n := by
                rintro rfl
                exact hxnl hcond.2
              rw [Quick2DSizeT.get_set_ne hwf hnval hxv (Ne.symm hxn) label]
              exact ⟨hxv, hxnl⟩
            · rw [Quick2DSizeT.get_set_self hwf hnval label]
              exact ⟨hnval, hl⟩
          · rw [List.nodup_append]
            exact ⟨hinv.2, List.nodup_singleton n, by
              intro a ha hb
              rw [List.mem_singleton] at hb
              subst hb
              exact hnmem ha⟩
        · exact ih hwf h hinv
    · exact ih hwf h hinv

theorem drainQueueT_trace {label : Int} {hl : label ≠ NOLABEL}
    {q tr tr2 : List IntPair} {ls : Quick2DSizeT} {hwf : LSWF size ls}
    {ls2 : Quick2DSizeT}
    (h : drainQueueT access img pred connect size label hl q ls hwf tr =
      .ok (ls2, tr2))
    (hinv : (∀ x ∈ tr, ValidPos size x ∧ ls.get x.1 x.2 ≠ NOLABEL) ∧ tr.Nodup) :
    (∀ x ∈ tr2, ValidPos size x ∧ ls2.get x.1 x.2 ≠ NOLABEL) ∧ tr2.Nodup := by
  induction q, ls, hwf, tr using drainQueueT.induct access img pred connect size label hl with
  | case1 ls hwf tr =>
    simp only [drainQueueT, Except.ok.injEq, Prod.mk.injEq] at h
    obtain ⟨rfl, rfl⟩ := h
    exact hinv
  | case2 ls hwf tr front rest e hvis =>
    rw [drainQueueT] at h
    split at h
    · simp at h
    · rename_i q3 ls3 tr3 hvis2
      rw [hvis] at hvis2
      exact absurd hvis2 (by simp)
  | case3 ls hwf tr front rest q2 ls2a tr2a hvis ih =>
    rw [drainQueueT] at h
    split at h
    · rename_i hvis2
      rw [hvis] at hvis2
      exact absurd hvis2 (by simp)
    · rename_i q3 ls3 tr3 hvis2
      rw [hvis] at hvis2
      injection hvis2 with hv
      injection hv with hv1 hv
      injection hv with hv2 hv3
      subst hv1
      subst hv2
      subst hv3
      exact ih h (visitNeighboursT_trace access img pred size hl hwf hvis hinv)

theorem markLoopT_trace {coords tr tr2 : List IntPair} {ls : Quick2DSizeT}
    {currentLabel : Int} {hl : NOLABEL < currentLabel} {hwf : LSWF size ls}
    {ls2 : Quick2DSizeT} {cur2 : Int}
    (hcoords : ∀ p ∈ coords, ValidPos size p)
    (h : markLoopT access img pred connect size coords ls currentLabel hl hwf tr =
      .ok (ls2, cur2, tr2))
    (hinv : (∀ x ∈ tr, ValidPos size x ∧ ls.get x.1 x.2 ≠ NOLABEL) ∧ tr.Nodup) :
    (∀ x ∈ tr2, ValidPos size x ∧ ls2.get x.1 x.2 ≠ NOLABEL) ∧ tr2.Nodup := by
  induction coords generalizing ls currentLabel hl hwf tr with
  | nil =>
    simp only [markLoopT, Except.ok.injEq, Prod.mk.injEq] at h
    obtain ⟨rfl, rfl, rfl⟩ := h
    exact hinv
  | cons p rest ih =>
    have hpval : ValidPos size p := hcoords p (List.mem_cons_self p rest)
    have hcoords2 : ∀ x ∈ rest, ValidPos size x :=
      fun x hx => hcoords x (List.mem_cons_of_mem p hx)
    rw [markLoopT] at h
    split at h
    · exact absurd h (by simp)
    · rename_i fgv hpe
      split at h
      · split at h
        · rename_i hnlb
          have hnl : ls.get p.1 p.2 = NOLABEL := by rwa [beq_iff_eq] at hnlb
          split at h
          · exact absurd h (by simp)
          · rename_i lsd trd hdrain
            have hcne : currentLabel ≠ NOLABEL := by omega
            have hpmem : p ∉ tr := by
              intro hn
              exact (hinv.1 p hn).2 hnl
            have hinv2 : (∀ x ∈ tr ++ [p], ValidPos size x ∧
                (ls.set p.1 p.2 currentLabel).get x.1 x.2 ≠ NOLABEL) ∧
                (tr ++ [p]).Nodup := by
              refine ⟨?_, ?_⟩
              · intro x hx
                rw [List.mem_append, List.mem_singleton] at hx
                rcases hx with hx | rfl
                · obtain ⟨hxv, hxnl⟩ := hinv.1 x hx
                  have hxp : x ≠ p := by
                    rintro rfl
                    exact hxnl hnl
                  rw [Quick2DSizeT.get_set_ne hwf hpval hxv (Ne.symm hxp) _]
                  exact ⟨hxv, hxnl⟩
                · rw [Quick2DSizeT.get_set_self hwf hpval _]
                  exact ⟨hpval, hcne⟩
              · rw [List.nodup_append]
                exact ⟨hinv.2, List.nodup_singleton p, by
                  intro a ha hb
                  rw [List.mem_singleton] at hb
                  subst hb
                  exact hpmem ha⟩
            exact ih hcoords2 h
              (drainQueueT_trace access img pred connect size hdrain hinv2)
        · exact ih hcoords2 h hinv
      · exact ih hcoords2 h hinv

end Instrumented

section InstrumentedTotal

variable {ImgType α : Type}
variable (access : ImgType → Int → Int → α) (img : ImgType)
variable (pred : α → Except CCError Bool)
variable (classify : α → Bool)
variable (connect : IntPair → List IntPair)
variable (size : IntPair)

theorem visitNeighboursT_total (hp : ∀ v, pred v = .ok (classify v))
    {label : Int} (ns q tr : List IntPair) (ls : Quick2DSizeT) :
    ∃ out, visitNeighboursT access img pred size label ns q ls tr = .ok out := by
  induction ns generalizing q ls tr with
  | nil => exact ⟨(q, ls, tr), rfl⟩
  | cons n rest ih =>
    rw [visitNeighboursT]
    split
    · split
      · rename_i e he
        rw [hp] at he
        exact absurd he (by simp)
      · split
        · exact ih _ _ _
        · exact ih _ _ _
    · exact ih _ _ _

theorem drainQueueT_total (hp : ∀ v, pred v = .ok (classify v))
    {label : Int} {hl : label ≠ NOLABEL} {q tr : List IntPair}
    {ls : Quick2DSizeT} {hwf : LSWF size ls} :
    ∃ out, drainQueueT access img pred connect size label hl q ls hwf tr =
      .ok out := by
  induction q, ls, hwf, tr using drainQueueT.induct access img pred connect size label hl with
  | case1 ls hwf tr => exact ⟨(ls, tr), by rw [drainQueueT]⟩
  | case2 ls hwf tr front rest e hvis =>
    obtain ⟨out, hout⟩ :=
      visitNeighboursT_total access img pred classify size hp (connect front)
        rest tr ls
    rw [hvis] at hout
    exact absurd hout (by simp)
  | case3 ls hwf tr front rest q2 ls2a tr2a hvis ih =>
    obtain ⟨out, hout⟩ := ih
    refine ⟨out, ?_⟩
    rw [drainQueueT]
    split
    · rename_i hvis2
      rw [hvis] at hvis2
      exact absurd hvis2 (by simp)
    · rename_i q3 ls3 tr3 hvis2
      rw [hvis] at hvis2
      injection hvis2 with hv
      injection hv with hv1 hv
      injection hv with hv2 hv3
      subst hv1
      subst hv2
      subst hv3
      exact hout

theorem markLoopT_total (hp : ∀ v, pred v = .ok (classify v))
    {coords tr : List IntPair} {ls : Quick2DSizeT} {currentLabel : Int}
    {hl : NOLABEL < currentLabel} {hwf : LSWF size ls} :
    ∃ out, markLoopT access img pred connect size coords ls currentLabel
      hl hwf tr = .ok out := by
  induction coords generalizing ls currentLabel hl hwf tr with
  | nil => exact ⟨(ls, currentLabel, tr), by rw [markLoopT]⟩
  | cons p rest ih =>
    rw [markLoopT]
    split
    · rename_i e he
      rw [hp] at he
      exact absurd he (by simp)
    · rename_i fgv hpe
      split
      · split
        · split
          · rename_i e hdrain
            obtain ⟨out, hout⟩ :=
              drainQueueT_total access img pred classify connect size hp
            rw [hdrain] at hout
            exact absurd hout (by simp)
          · exact ih
        · exact ih
      · exact ih

end InstrumentedTotal

theorem list_getD_set_self {β : Type} {l : List β} {i : Nat}
    (h : i < l.length) (a d : β) : (l.set i a).getD i d = a := by
  rw [List.getD_eq_getElem?_getD, List.getElem?_set_self h]
  rfl

theorem list_getD_set_ne {β : Type} {l : List β} {i j : Nat}
    (h : i ≠ j) (a d : β) : (l.set i a).getD j d = l.getD j d := by
  rw [List.getD_eq_getElem?_getD, List.getElem?_set_ne h,
    ← List.getD_eq_getElem?_getD]

theorem list_getD_replicate {β : Type} (r k : Nat) (d : β) :
    (List.replicate r d).getD k d = d := by
  rw [List.getD_eq_getElem?_getD]
  exact List.getElem?_getD_replicate_default_eq d r k

/-- What the final collection loop computes: bucket `k` of the result
receives, in scan order, exactly the cells labeled `labelStart + k`. -/
theorem collectResult_spec (ls : Quick2DSizeT) :
    ∀ (coords : List IntPair) (acc : List (List IntPair)),
    (∀ p ∈ coords, ls.get p.1 p.2 ≠ NOLABEL →
      labelStart ≤ ls.get p.1 p.2 ∧
        ls.get p.1 p.2 < labelStart + (acc.length : Int)) →
    (collectResult ls coords acc).length = acc.length ∧
    ∀ k, k < acc.length →
      (collectResult ls coords acc).getD k [] =
        acc.getD k [] ++
          coords.filter (fun p => ls.get p.1 p.2 == labelStart + (k : Int)) := by
  intro coords
  induction coords with
  | nil =>
    intro acc _
    exact ⟨rfl, fun k _ => by simp [collectResult]⟩
  | cons p rest ih =>
    intro acc hbounds
    rw [collectResult]
    split
    · -- p is labeled: it goes into bucket (label - labelStart)
      rename_i hbne
      have hne : ls.get p.1 p.2 ≠ NOLABEL := by
        rwa [bne_iff_ne] at hbne
      obtain ⟨hlo, hhi⟩ := hbounds p (List.mem_cons_self p rest) hne
      have hjlt : (ls.get p.1 p.2 - labelStart).toNat < acc.length := by omega
      have hlen_set :
          (acc.set (ls.get p.1 p.2 - labelStart).toNat
            (acc.getD (ls.get p.1 p.2 - labelStart).toNat [] ++ [p])).length =
          acc.length := List.length_set acc _ _
      obtain ⟨ih1, ih2⟩ := ih _ (by
        rw [hlen_set]
        exact fun x hx hxne => hbounds x (List.mem_cons_of_mem p hx) hxne)
      refine ⟨by rw [ih1, hlen_set], ?_⟩
      intro k hk
      rw [ih2 k (by rw [hlen_set]; exact hk)]
      rw [List.filter_cons]
      by_cases hkj : (labelStart + (k : Int)) = ls.get p.1 p.2
      · have hkj2 : (ls.get p.1 p.2 - labelStart).toNat = k := by omega
        rw [hkj2, list_getD_set_self hk]
        have : (ls.get p.1 p.2 == labelStart + (k : Int)) = true := by
          rw [beq_iff_eq]
          omega
        rw [this]
        simp
      · have hkj2 : (ls.get p.1 p.2 - labelStart).toNat ≠ k := by omega
        rw [list_getD_set_ne hkj2]
        have : (ls.get p.1 p.2 == labelStart + (k : Int)) = false := by
          rw [beq_eq_false_iff_ne]
          omega
        rw [this]
        simp
    · -- p is unlabeled: skipped, and it matches no bucket predicate
      rename_i hbne
      have heq : ls.get p.1 p.2 = NOLABEL := by
        by_contra hc
        exact hbne (by rwa [bne_iff_ne])
      obtain ⟨ih1, ih2⟩ := ih acc
        (fun x hx hxne => hbounds x (List.mem_cons_of_mem p hx) hxne)
      refine ⟨ih1, ?_⟩
      intro k hk
      rw [ih2 k hk, List.filter_cons]
      have : (ls.get p.1 p.2 == labelStart + (k : Int)) = false := by
        rw [beq_eq_false_iff_ne, heq]
        have := NOLABEL_lt_labelStart
        omega
      rw [this]
      simp

section Master

variable {ImgType α : Type}
variable (access : ImgType → Int → Int → α) (img : ImgType)
variable (pred : α → Except CCError Bool)
variable (classify : α → Bool)
variable (connect : IntPair → List IntPair)
variable (size : IntPair)

/-- Master lemma: for valid dimensions and a total classifier, `find`
succeeds; the result is the bucket collection of the final label storage,
which satisfies the full scan invariant. -/
theorem find_spec (hp : ∀ v, pred v = .ok (classify v))
    (hsym : ∀ a b : IntPair, a ∈ connect b ↔ b ∈ connect a)
    (hr : 1 ≤ size.1) (hc : 1 ≤ size.2) :
    ∃ (ls2 : Quick2DSizeT) (cur2 : Int),
      markLoop access img pred connect size (rowMajor size)
        (Quick2DSizeT.new size.1 size.2) labelStart NOLABEL_lt_labelStart
        (LSWF_new size) = .ok (ls2, cur2) ∧
      find access img pred connect size =
        .ok (collectResult ls2 (rowMajor size)
          (List.replicate (cur2 - labelStart).toNat [])) ∧
      labelStart ≤ cur2 ∧
      ScanInv access img classify connect size (rowMajor size) ls2 cur2 := by
  obtain ⟨⟨ls2, cur2⟩, hml⟩ :=
    @markLoop_total ImgType α access img pred classify connect size hp
      (rowMajor size) (Quick2DSizeT.new size.1 size.2) labelStart
      NOLABEL_lt_labelStart (LSWF_new size)
  obtain ⟨hle, hfin⟩ := markLoop_sem access img pred classify connect size hp hsym
    (List.nil_append (rowMajor size)).symm
    (scanInv_init access img classify connect size) hml
  refine ⟨ls2, cur2, hml, ?_, hle, hfin⟩
  unfold find
  rw [if_neg (by omega)]
  split
  · rename_i e hml2
    rw [hml] at hml2
    exact absurd hml2 (by simp)
  · rename_i ls3 cur3 hml2
    rw [hml] at hml2
    injection hml2 with hv
    injection hv with hv1 hv2
    rw [hv1, hv2]

/-- Membership in bucket `k` of the collected result is exactly "valid
cell carrying label `labelStart + k`". -/
theorem bucket_mem {ls2 : Quick2DSizeT} {cur2 : Int}
    (hle : labelStart ≤ cur2)
    (hrange : ∀ p : IntPair, ValidPos size p → ls2.get p.1 p.2 ≠ NOLABEL →
      labelStart ≤ ls2.get p.1 p.2 ∧ ls2.get p.1 p.2 < cur2) :
    (collectResult ls2 (rowMajor size)
      (List.replicate (cur2 - labelStart).toNat [])).length =
      (cur2 - labelStart).toNat ∧
    ∀ k, k < (cur2 - labelStart).toNat →
      ∀ p : IntPair,
        (p ∈ (collectResult ls2 (rowMajor size)
          (List.replicate (cur2 - labelStart).toNat [])).getD k [] ↔
        (ValidPos size p ∧ ls2.get p.1 p.2 = labelStart + (k : Int))) := by
  have hbounds : ∀ p ∈ rowMajor size, ls2.get p.1 p.2 ≠ NOLABEL →
      labelStart ≤ ls2.get p.1 p.2 ∧
        ls2.get p.1 p.2 < labelStart +
          ((List.replicate (cur2 - labelStart).toNat ([] : List IntPair)).length : Int) := by
    intro p hpm hpne
    obtain ⟨h1, h2⟩ := hrange p (mem_rowMajor.mp hpm) hpne
    rw [List.length_replicate]
    constructor
    · exact h1
    · omega
  obtain ⟨hlen, hget⟩ := collectResult_spec ls2 (rowMajor size) _ hbounds
  rw [List.length_replicate] at hlen
  refine ⟨hlen, ?_⟩
  intro k hk p
  rw [hget k (by rw [List.length_replicate]; exact hk)]
  rw [list_getD_replicate]
  rw [List.nil_append, List.mem_filter, beq_iff_eq, mem_rowMajor]

end Master

/-- The unrolled neighbour list computed by `EightConnect::GetNeighbour`. -/
theorem eightConnect_eq (pos : IntPair) :
    EightConnect.GetNeighbour pos =
      [(pos.1 - 1, pos.2 - 1), (pos.1 - 1, pos.2), (pos.1 - 1, pos.2 + 1),
       (pos.1, pos.2 - 1), (pos.1, pos.2 + 1),
       (pos.1 + 1, pos.2 - 1), (pos.1 + 1, pos.2), (pos.1 + 1, pos.2 + 1)] := by
  show [((pos.1 + -1 : Int), (pos.2 + -1 : Int)), (pos.1 + -1, pos.2 + 0),
     (pos.1 + -1, pos.2 + 1), (pos.1 + 0, pos.2 + -1), (pos.1 + 0, pos.2 + 1),
     (pos.1 + 1, pos.2 + -1), (pos.1 + 1, pos.2 + 0), (pos.1 + 1, pos.2 + 1)] = _
  norm_num [sub_eq_add_neg]

theorem fourConnect_symm (a b : IntPair) :
    a ∈ FourConnect.GetNeighbour b ↔ b ∈ FourConnect.GetNeighbour a := by
  simp only [FourConnect.GetNeighbour, List.mem_cons, List.not_mem_nil,
    or_false, Prod.ext_iff]
  omega

/-- Membership characterization of the 8-neighbourhood: the offsets
(Δrow, Δcol) range over the unit box minus the origin. -/
theorem eightConnect_mem (pos q : IntPair) :
    q ∈ EightConnect.GetNeighbour pos ↔
      (q.1 - pos.1).natAbs ≤ 1 ∧ (q.2 - pos.2).natAbs ≤ 1 ∧ q ≠ pos := by
  rw [eightConnect_eq]
  simp only [List.mem_cons, List.not_mem_nil, or_false, Prod.ext_iff, ne_eq]
  omega

theorem eightConnect_symm (a b : IntPair) :
    a ∈ EightConnect.GetNeighbour b ↔ b ∈ EightConnect.GetNeighbour a := by
  rw [eightConnect_mem, eightConnect_mem]
  constructor
  · rintro ⟨h1, h2, h3⟩
    exact ⟨by omega, by omega, Ne.symm h3⟩
  · rintro ⟨h1, h2, h3⟩
    exact ⟨by omega, by omega, Ne.symm h3⟩

theorem connect_symm {connect : IntPair → List IntPair}
    (hconn : connect = FourConnect.GetNeighbour ∨
      connect = EightConnect.GetNeighbour) :
    ∀ a b : IntPair, a ∈ connect b ↔ b ∈ connect a := by
  rcases hconn with rfl | rfl
  · exact fourConnect_symm
  · exact eightConnect_symm

/-- Generic conversion between list membership and `getD` at an index. -/
theorem mem_iff_getD {β : Type} {l : List (List β)} {x : List β} :
    x ∈ l ↔ ∃ k, k < l.length ∧ l.getD k [] = x := by
  rw [List.mem_iff_get]
  constructor
  · rintro ⟨⟨k, hk⟩, rfl⟩
    refine ⟨k, hk, ?_⟩
    rw [List.getD_eq_getElem _ _ hk, List.get_eq_getElem]
  · rintro ⟨k, hk, rfl⟩
    refine ⟨⟨k, hk⟩, ?_⟩
    rw [List.getD_eq_getElem _ _ hk, List.get_eq_getElem]

section ReachLabel

variable {ImgType α : Type}
variable (access : ImgType → Int → Int → α) (img : ImgType)
variable (classify : α → Bool)
variable (connect : IntPair → List IntPair)
variable (size : IntPair)

/-- In the final scan state, any two coordinates connected by a foreground
path carry the same label. -/
theorem scanInv_reach_label {ls2 : Quick2DSizeT} {cur2 : Int}
    (hfin : ScanInv access img classify connect size (rowMajor size) ls2 cur2)
    {p q : IntPair}
    (h : ReachFg access img classify connect size p q) :
    ls2.get p.1 p.2 = ls2.get q.1 q.2 := by
  induction h with
  | refl => rfl
  | tail hab hbc ih =>
    obtain ⟨hfgb, hfgc, hbc2⟩ := hbc
    have hbval := isFg_valid access img classify size hfgb
    have hbl : ls2.get _ _ ≠ NOLABEL :=
      hfin.scanned _ (mem_rowMajor.mpr hbval) hfgb
    rw [ih]
    exact (hfin.closed _ hbval hbl _ hbc2 hfgc).symm

end ReachLabel

/-!
## Claim theorems for the error-handling and policy claims
-/

/-- C4: The built-in pixel classifiers are total (they always return a
classification, never an error) and pure over their supported pixel value
types: `BinaryPredicate<bool>` returns the pixel value itself (true =
foreground), and `BinaryPredicate<char>` — the small-integer/character
instance, `char` values modelled as integers — returns true exactly when
the value is nonzero. -/
theorem binaryPredicate_builtin_total :
    (∀ b : Bool, BinaryPredicate.bool b = .ok b) ∧
    (∀ c : Int, (BinaryPredicate.char c = .ok true ↔ c ≠ 0) ∧
      (BinaryPredicate.char c = .ok false ↔ c = 0)) := by
  refine ⟨fun b => rfl, fun c => ⟨?_, ?_⟩⟩ <;>
    simp [BinaryPredicate.char, decide_eq_true_iff]

/-- C8: `FourConnect::GetNeighbour` returns exactly the 4 axis-aligned
neighbours and `EightConnect::GetNeighbour` exactly the 8 offsets
(Δrow, Δcol) ∈ {-1,0,1}² \ {(0,0)}, each in the source's fixed
deterministic order (given by the explicit list equalities), unfiltered:
returned coordinates may be out of grid or negative. -/
theorem neighbour_generators_exact (pos : IntPair) :
    ((FourConnect.GetNeighbour pos).length = 4 ∧
      ∀ q : IntPair, q ∈ FourConnect.GetNeighbour pos ↔
        (q.1 - pos.1).natAbs + (q.2 - pos.2).natAbs = 1) ∧
    ((EightConnect.GetNeighbour pos).length = 8 ∧
      ∀ q : IntPair, q ∈ EightConnect.GetNeighbour pos ↔
        ((q.1 - pos.1).natAbs ≤ 1 ∧ (q.2 - pos.2).natAbs ≤ 1 ∧ q ≠ pos)) ∧
    FourConnect.GetNeighbour pos =
      [(pos.1 + 1, pos.2), (pos.1, pos.2 + 1), (pos.1 - 1, pos.2), (pos.1, pos.2 - 1)] ∧
    EightConnect.GetNeighbour pos =
      [(pos.1 - 1, pos.2 - 1), (pos.1 - 1, pos.2), (pos.1 - 1, pos.2 + 1),
       (pos.1, pos.2 - 1), (pos.1, pos.2 + 1),
       (pos.1 + 1, pos.2 - 1), (pos.1 + 1, pos.2), (pos.1 + 1, pos.2 + 1)] := by
  have height := eightConnect_eq pos
  refine ⟨⟨rfl, fun q => ?_⟩, ⟨?_, fun q => ?_⟩, rfl, height⟩
  · simp only [FourConnect.GetNeighbour, List.mem_cons, List.not_mem_nil,
      or_false, Prod.ext_iff]
    omega
  · rw [height]
    rfl
  · rw [height]
    simp only [List.mem_cons, List.not_mem_nil, or_false, Prod.ext_iff, ne_eq]
    omega

/-- C5: for a pixel value type with no classifier specialization (the
primary `BinaryPredicate` template), every `find` call on an image with
valid dimensions fails with the unsupported-type error: the error thrown
while classifying the very first scanned pixel propagates out of
`operator()`, no partial result is returned (the `Except` carries only the
error), and no pixel is treated as background. -/
theorem find_unsupported_type_aborts {ImgType α : Type}
    (access : ImgType → Int → Int → α) (img : ImgType)
    (connect : IntPair → List IntPair) (size : IntPair)
    (hr : 1 ≤ size.1) (hc : 1 ≤ size.2) :
    find access img (fun v : α => BinaryPredicate.generic v) connect size =
      .error .unsupportedType := by
  unfold find
  rw [if_neg (by omega)]
  obtain ⟨rest, hrm⟩ := rowMajor_head hr hc
  rw [hrm, markLoop]
  simp [BinaryPredicate.generic]

/-- Witness for C5 at a concrete input: a 2×2 image of rationals (no
classifier specialization exists for that value type). -/
theorem find_unsupported_type_aborts_witness :
    (1 : Int) ≤ 2 ∧
    find (fun (img : Int → Int → Rat) i j => img i j) (fun _ _ => (0 : Rat))
      (fun v : Rat => BinaryPredicate.generic v) FourConnect.GetNeighbour
      (2, 2) = .error .unsupportedType :=
  ⟨by norm_num,
    find_unsupported_type_aborts (fun (img : Int → Int → Rat) i j => img i j)
      (fun _ _ => (0 : Rat)) FourConnect.GetNeighbour (2, 2)
      (by norm_num) (by norm_num)⟩

/-- C6: `operator()` fails with InvalidDimension exactly when `rows < 1` or
`cols < 1` — the check happens before the label storage is allocated and
before any labeling work, and on failure only the error is returned.  The
iff's forward direction needs the (true of both built-in classifiers)
assumption that the classifier never itself throws the invalid-size
error. -/
theorem find_invalidDimension_iff {ImgType α : Type}
    (access : ImgType → Int → Int → α) (img : ImgType)
    (pred : α → Except CCError Bool) (connect : IntPair → List IntPair)
    (size : IntPair) (hpred : ∀ v, pred v ≠ .error .invalidDimension) :
    find access img pred connect size = .error .invalidDimension ↔
      size.1 < 1 ∨ size.2 < 1 := by
  constructor
  · intro h
    by_contra hdim
    rw [not_or, not_lt, not_lt] at hdim
    unfold find at h
    rw [if_neg (by omega)] at h
    split at h
    · rename_i e hml
      injection h with h2
      subst h2
      obtain ⟨v, hv⟩ := markLoop_error access img pred connect size hml
      exact hpred v hv
    · simp at h
  · intro h
    unfold find
    rw [if_pos h]

/-- Witness for C6 at the concrete invalid size (0, 3) with the built-in
boolean classifier. -/
theorem find_invalidDimension_iff_witness :
    (∀ v : Bool, BinaryPredicate.bool v ≠ .error .invalidDimension) ∧
    (find (fun (img : Int → Int → Bool) i j => img i j) (fun _ _ => true)
        BinaryPredicate.bool FourConnect.GetNeighbour (0, 3) =
        .error .invalidDimension ↔ (0 : Int) < 1 ∨ (3 : Int) < 1) :=
  ⟨fun v => by simp [BinaryPredicate.bool],
    find_invalidDimension_iff (fun (img : Int → Int → Bool) i j => img i j)
      (fun _ _ => true) BinaryPredicate.bool FourConnect.GetNeighbour (0, 3)
      (fun v => by simp [BinaryPredicate.bool])⟩

/-- C7 counterexample: the claim says the `Quick2DSizeT` constructor itself
fails with InvalidDimension when rows < 1, but at rows = 0, cols = 3 the
source constructor returns normally with a 0-slot allocation, while the
spec's constructor contract (`Quick2DSizeTNewSpec`, modelled from §4.1)
demands the failure. -/
theorem quick2d_new_unchecked_cex :
    Quick2DSizeT.new 0 3 = { cols := 3, data := [] } ∧
    Quick2DSizeTNewSpec 0 3 = .error .invalidDimension := by
  constructor
  · rfl
  · rfl

/-- C7 amended: the constructor performs no dimension check; for
rows ≥ 1 and cols ≥ 1 it allocates exactly rows×cols slots all set to
NO_LABEL, and the rows < 1 / cols < 1 InvalidDimension rejection is
performed by `ConnectComponentFinder::operator()` before it constructs the
grid. -/
theorem quick2d_new_amended (rows cols : Int) (hr : 1 ≤ rows) (hc : 1 ≤ cols) :
    ((Quick2DSizeT.new rows cols).data.length = (rows * cols).toNat ∧
      ∀ i j : Int, (Quick2DSizeT.new rows cols).get i j = NOLABEL) ∧
    ∀ {ImgType α : Type} (access : ImgType → Int → Int → α) (img : ImgType)
      (pred : α → Except CCError Bool) (connect : IntPair → List IntPair)
      (size : IntPair), size.1 < 1 ∨ size.2 < 1 →
        find access img pred connect size = .error .invalidDimension := by
  refine ⟨⟨by simp [Quick2DSizeT.new], fun i j => Quick2DSizeT.get_new _ _ _ _⟩, ?_⟩
  intro ImgType α access img pred connect size h
  unfold find
  rw [if_pos h]

/-- C1: for every image with valid dimensions, a supported (total)
classifier and a configured connectivity policy, the returned Components
partition exactly the foreground coordinates: every member of every
Component is foreground (so no background coordinate appears anywhere),
every foreground coordinate appears in some Component, and distinct
Components are disjoint — hence every foreground coordinate lies in
exactly one Component. -/
theorem find_partitions_foreground {ImgType α : Type}
    (access : ImgType → Int → Int → α) (img : ImgType)
    (pred : α → Except CCError Bool) (classify : α → Bool)
    (connect : IntPair → List IntPair) (size : IntPair)
    (hp : ∀ v, pred v = .ok (classify v))
    (hconn : connect = FourConnect.GetNeighbour ∨
      connect = EightConnect.GetNeighbour)
    (hr : 1 ≤ size.1) (hc : 1 ≤ size.2) :
    ∃ res, find access img pred connect size = .ok res ∧
      (∀ comp ∈ res, ∀ p ∈ comp, isFg access img classify size p = true) ∧
      (∀ p : IntPair, isFg access img classify size p = true →
        ∃ comp ∈ res, p ∈ comp) ∧
      (∀ i j : Nat, i < res.length → j < res.length → i ≠ j →
        ∀ p : IntPair, p ∈ res.getD i [] → p ∉ res.getD j []) := by
  have hsym := connect_symm hconn
  obtain ⟨ls2, cur2, hml, hfind, hle, hfin⟩ :=
    find_spec access img pred classify connect size hp hsym hr hc
  obtain ⟨hlen, hmem⟩ := bucket_mem size hle
    (fun p hv hnl => ⟨(hfin.range p hv hnl).2.1, (hfin.range p hv hnl).2.2⟩)
  have hz := NOLABEL_lt_labelStart
  refine ⟨_, hfind, ?_, ?_, ?_⟩
  · intro comp hcomp p hp2
    obtain ⟨k, hk, hgk⟩ := mem_iff_getD.mp hcomp
    rw [hlen] at hk
    rw [← hgk] at hp2
    obtain ⟨hv, hlab⟩ := (hmem k hk p).mp hp2
    exact (hfin.range p hv (by rw [hlab]; omega)).1
  · intro p hfg
    have hv := isFg_valid access img classify size hfg
    have hnl : ls2.get p.1 p.2 ≠ NOLABEL :=
      hfin.scanned p (mem_rowMajor.mpr hv) hfg
    obtain ⟨_, hlo, hhi⟩ := hfin.range p hv hnl
    have hk : (ls2.get p.1 p.2 - labelStart).toNat < (cur2 - labelStart).toNat := by
      omega
    have hlabeq : ls2.get p.1 p.2 =
        labelStart + ((ls2.get p.1 p.2 - labelStart).toNat : Int) := by omega
    refine ⟨_, mem_iff_getD.mpr ⟨(ls2.get p.1 p.2 - labelStart).toNat,
      by rw [hlen]; exact hk, rfl⟩, (hmem _ hk p).mpr ⟨hv, hlabeq⟩⟩
  · intro i j hi hj hij p hpi hpj
    rw [hlen] at hi hj
    have h1 := ((hmem i hi p).mp hpi).2
    have h2 := ((hmem j hj p).mp hpj).2
    rw [h1] at h2
    exact hij (by omega)

/-- Witness for C1: a concrete 2×2 boolean image with foreground at (0,0)
and (1,1), 4-connectivity. -/
theorem find_partitions_foreground_witness :
    (∀ v : Bool, BinaryPredicate.bool v = .ok ((fun b : Bool => b) v)) ∧
    (FourConnect.GetNeighbour = FourConnect.GetNeighbour ∨
      FourConnect.GetNeighbour = EightConnect.GetNeighbour) ∧
    (1 : Int) ≤ 2 ∧
    ∃ res, find SquareBracketAccess
        (fun i j : Int => decide (i = j)) BinaryPredicate.bool
        FourConnect.GetNeighbour (2, 2) = .ok res ∧
      (∀ comp ∈ res, ∀ p ∈ comp,
        isFg SquareBracketAccess (fun i j : Int => decide (i = j))
          (fun b : Bool => b) (2, 2) p = true) ∧
      (∀ p : IntPair,
        isFg SquareBracketAccess (fun i j : Int => decide (i = j))
          (fun b : Bool => b) (2, 2) p = true → ∃ comp ∈ res, p ∈ comp) ∧
      (∀ i j : Nat, i < res.length → j < res.length → i ≠ j →
        ∀ p : IntPair, p ∈ res.getD i [] → p ∉ res.getD j []) :=
  ⟨fun _ => rfl, Or.inl rfl, by norm_num,
    find_partitions_foreground SquareBracketAccess
      (fun i j : Int => decide (i = j)) BinaryPredicate.bool
      (fun b : Bool => b) FourConnect.GetNeighbour (2, 2)
      (fun _ => rfl) (Or.inl rfl) (by norm_num) (by norm_num)⟩

/-- C2: for every image with valid dimensions and a supported classifier,
two foreground coordinates lie in the same returned Component iff they are
joined by a path of foreground coordinates whose consecutive elements are
neighbours under the configured 4- or 8-connectivity policy. -/
theorem find_component_iff_connected {ImgType α : Type}
    (access : ImgType → Int → Int → α) (img : ImgType)
    (pred : α → Except CCError Bool) (classify : α → Bool)
    (connect : IntPair → List IntPair) (size : IntPair)
    (hp : ∀ v, pred v = .ok (classify v))
    (hconn : connect = FourConnect.GetNeighbour ∨
      connect = EightConnect.GetNeighbour)
    (hr : 1 ≤ size.1) (hc : 1 ≤ size.2) :
    ∃ res, find access img pred connect size = .ok res ∧
      ∀ p q : IntPair, isFg access img classify size p = true →
        isFg access img classify size q = true →
        ((∃ comp ∈ res, p ∈ comp ∧ q ∈ comp) ↔
          ReachFg access img classify connect size p q) := by
  have hsym := connect_symm hconn
  obtain ⟨ls2, cur2, hml, hfind, hle, hfin⟩ :=
    find_spec access img pred classify connect size hp hsym hr hc
  obtain ⟨hlen, hmem⟩ := bucket_mem size hle
    (fun x hv hnl => ⟨(hfin.range x hv hnl).2.1, (hfin.range x hv hnl).2.2⟩)
  have hz := NOLABEL_lt_labelStart
  refine ⟨_, hfind, ?_⟩
  intro p q hfp hfq
  have hpv := isFg_valid access img classify size hfp
  have hqv := isFg_valid access img classify size hfq
  constructor
  · rintro ⟨comp, hcomp, hpc, hqc⟩
    obtain ⟨k, hk, hgk⟩ := mem_iff_getD.mp hcomp
    rw [hlen] at hk
    rw [← hgk] at hpc hqc
    obtain ⟨_, hlp⟩ := (hmem k hk p).mp hpc
    obtain ⟨_, hlq⟩ := (hmem k hk q).mp hqc
    exact hfin.conn p q hpv hqv (by rw [hlp, hlq]) (by rw [hlp]; omega)
  · intro hreach
    have hlabeq := scanInv_reach_label access img classify connect size hfin hreach
    have hnl : ls2.get p.1 p.2 ≠ NOLABEL :=
      hfin.scanned p (mem_rowMajor.mpr hpv) hfp
    obtain ⟨_, hlo, hhi⟩ := hfin.range p hpv hnl
    have hk : (ls2.get p.1 p.2 - labelStart).toNat < (cur2 - labelStart).toNat := by
      omega
    have hlab1 : ls2.get p.1 p.2 =
        labelStart + ((ls2.get p.1 p.2 - labelStart).toNat : Int) := by omega
    refine ⟨_, mem_iff_getD.mpr ⟨(ls2.get p.1 p.2 - labelStart).toNat,
      by rw [hlen]; exact hk, rfl⟩,
      (hmem _ hk p).mpr ⟨hpv, hlab1⟩,
      (hmem _ hk q).mpr ⟨hqv, by rw [← hlabeq]; exact hlab1⟩⟩

/-- Witness for C2: the 2×2 diagonal image under 8-connectivity. -/
theorem find_component_iff_connected_witness :
    (∀ v : Bool, BinaryPredicate.bool v = .ok ((fun b : Bool => b) v)) ∧
    (EightConnect.GetNeighbour = FourConnect.GetNeighbour ∨
      EightConnect.GetNeighbour = EightConnect.GetNeighbour) ∧
    (1 : Int) ≤ 2 ∧
    ∃ res, find SquareBracketAccess
        (fun i j : Int => decide (i = j)) BinaryPredicate.bool
        EightConnect.GetNeighbour (2, 2) = .ok res ∧
      ∀ p q : IntPair,
        isFg SquareBracketAccess (fun i j : Int => decide (i = j))
          (fun b : Bool => b) (2, 2) p = true →
        isFg SquareBracketAccess (fun i j : Int => decide (i = j))
          (fun b : Bool => b) (2, 2) q = true →
        ((∃ comp ∈ res, p ∈ comp ∧ q ∈ comp) ↔
          ReachFg SquareBracketAccess (fun i j : Int => decide (i = j))
            (fun b : Bool => b) EightConnect.GetNeighbour (2, 2) p q) :=
  ⟨fun _ => rfl, Or.inr rfl, by norm_num,
    find_component_iff_connected SquareBracketAccess
      (fun i j : Int => decide (i = j)) BinaryPredicate.bool
      (fun b : Bool => b) EightConnect.GetNeighbour (2, 2)
      (fun _ => rfl) (Or.inr rfl) (by norm_num) (by norm_num)⟩

/-- C3: the returned sequence is indexed by the normalized labels
0 .. n-1 (each index holds the Component of label `labelStart + k`, so
labels are dense and contiguous after normalizing away the sentinel), and
there is a list of seed coordinates, strictly increasing in row-major scan
order with the component index, whose k-th element lies in Component k and
is its row-major minimum.  The scan-order minimum of a component is
exactly the pixel of that component first encountered by the outer
row-major scan — the unlabeled foreground pixel that seeded label k — so
Component k is seeded by the (k+1)-th seed the scan discovers. -/
theorem find_labels_in_seed_order {ImgType α : Type}
    (access : ImgType → Int → Int → α) (img : ImgType)
    (pred : α → Except CCError Bool) (classify : α → Bool)
    (connect : IntPair → List IntPair) (size : IntPair)
    (hp : ∀ v, pred v = .ok (classify v))
    (hconn : connect = FourConnect.GetNeighbour ∨
      connect = EightConnect.GetNeighbour)
    (hr : 1 ≤ size.1) (hc : 1 ≤ size.2) :
    ∃ res, find access img pred connect size = .ok res ∧
      ∃ seeds : List IntPair, seeds.length = res.length ∧
        seeds.Pairwise scanLt ∧
        ∀ k, k < res.length →
          seeds.getD k (0, 0) ∈ res.getD k [] ∧
          ∀ p ∈ res.getD k [], ¬ scanLt p (seeds.getD k (0, 0)) := by
  have hsym := connect_symm hconn
  obtain ⟨ls2, cur2, hml, hfind, hle, hfin⟩ :=
    find_spec access img pred classify connect size hp hsym hr hc
  obtain ⟨hlen, hmem⟩ := bucket_mem size hle
    (fun x hv hnl => ⟨(hfin.range x hv hnl).2.1, (hfin.range x hv hnl).2.2⟩)
  obtain ⟨sl, hslen, hspw, hsprops⟩ := hfin.seeds
  have hz := NOLABEL_lt_labelStart
  refine ⟨_, hfind, sl, by rw [hslen, hlen], hspw, ?_⟩
  intro k hk
  rw [hlen] at hk
  have hks : k < sl.length := by rw [hslen]; exact hk
  have hgetD : sl.getD k (0, 0) = sl.get ⟨k, hks⟩ := by
    rw [List.getD_eq_getElem _ _ hks, List.get_eq_getElem]
  obtain ⟨e1, _, e3, e4⟩ := hsprops k hks
  have hsv := isFg_valid access img classify size e1
  constructor
  · rw [hgetD]
    exact (hmem k hk _).mpr ⟨hsv, e3⟩
  · intro p hpmem
    obtain ⟨hpv, hpl⟩ := (hmem k hk p).mp hpmem
    rw [hgetD]
    exact e4 p hpv hpl

/-- Witness for C3 at the concrete 2×2 diagonal image, 4-connectivity. -/
theorem find_labels_in_seed_order_witness :
    (∀ v : Bool, BinaryPredicate.bool v = .ok ((fun b : Bool => b) v)) ∧
    (FourConnect.GetNeighbour = FourConnect.GetNeighbour ∨
      FourConnect.GetNeighbour = EightConnect.GetNeighbour) ∧
    (1 : Int) ≤ 2 ∧
    ∃ res, find SquareBracketAccess
        (fun i j : Int => decide (i = j)) BinaryPredicate.bool
        FourConnect.GetNeighbour (2, 2) = .ok res ∧
      ∃ seeds : List IntPair, seeds.length = res.length ∧
        seeds.Pairwise scanLt ∧
        ∀ k, k < res.length →
          seeds.getD k (0, 0) ∈ res.getD k [] ∧
          ∀ p ∈ res.getD k [], ¬ scanLt p (seeds.getD k (0, 0)) :=
  ⟨fun _ => rfl, Or.inl rfl, by norm_num,
    find_labels_in_seed_order SquareBracketAccess
      (fun i j : Int => decide (i = j)) BinaryPredicate.bool
      (fun b : Bool => b) FourConnect.GetNeighbour (2, 2)
      (fun _ => rfl) (Or.inl rfl) (by norm_num) (by norm_num)⟩

/-- C10: every Component of the Result is non-empty (it contains at least
its seed), and the length of the returned sequence equals the number of
labels assigned by the scan, `currentLabel - labelStart`, i.e. the number
of seeds discovered. -/
theorem find_components_nonempty_count {ImgType α : Type}
    (access : ImgType → Int → Int → α) (img : ImgType)
    (pred : α → Except CCError Bool) (classify : α → Bool)
    (connect : IntPair → List IntPair) (size : IntPair)
    (hp : ∀ v, pred v = .ok (classify v))
    (hconn : connect = FourConnect.GetNeighbour ∨
      connect = EightConnect.GetNeighbour)
    (hr : 1 ≤ size.1) (hc : 1 ≤ size.2) :
    ∃ (ls2 : Quick2DSizeT) (cur2 : Int),
      markLoop access img pred connect size (rowMajor size)
        (Quick2DSizeT.new size.1 size.2) labelStart NOLABEL_lt_labelStart
        (LSWF_new size) = .ok (ls2, cur2) ∧
      ∃ res, find access img pred connect size = .ok res ∧
        res.length = (cur2 - labelStart).toNat ∧
        ∀ comp ∈ res, comp ≠ [] := by
  have hsym := connect_symm hconn
  obtain ⟨ls2, cur2, hml, hfind, hle, hfin⟩ :=
    find_spec access img pred classify connect size hp hsym hr hc
  obtain ⟨hlen, hmem⟩ := bucket_mem size hle
    (fun x hv hnl => ⟨(hfin.range x hv hnl).2.1, (hfin.range x hv hnl).2.2⟩)
  obtain ⟨sl, hslen, hspw, hsprops⟩ := hfin.seeds
  refine ⟨ls2, cur2, hml, _, hfind, hlen, ?_⟩
  intro comp hcomp
  obtain ⟨k, hk, hgk⟩ := mem_iff_getD.mp hcomp
  rw [hlen] at hk
  have hks : k < sl.length := by rw [hslen]; exact hk
  obtain ⟨e1, _, e3, _⟩ := hsprops k hks
  have hsv := isFg_valid access img classify size e1
  have hin : sl.get ⟨k, hks⟩ ∈ comp := by
    rw [← hgk]
    exact (hmem k hk _).mpr ⟨hsv, e3⟩
  intro hempty
  rw [hempty] at hin
  exact List.not_mem_nil _ hin

/-- Witness for C10 at the concrete 2×2 diagonal image, 4-connectivity. -/
theorem find_components_nonempty_count_witness :
    (∀ v : Bool, BinaryPredicate.bool v = .ok ((fun b : Bool => b) v)) ∧
    (FourConnect.GetNeighbour = FourConnect.GetNeighbour ∨
      FourConnect.GetNeighbour = EightConnect.GetNeighbour) ∧
    (1 : Int) ≤ 2 ∧
    ∃ (ls2 : Quick2DSizeT) (cur2 : Int),
      markLoop SquareBracketAccess (fun i j : Int => decide (i = j))
        BinaryPredicate.bool FourConnect.GetNeighbour (2, 2)
        (rowMajor (2, 2)) (Quick2DSizeT.new 2 2) labelStart
        NOLABEL_lt_labelStart (LSWF_new (2, 2)) = .ok (ls2, cur2) ∧
      ∃ res, find SquareBracketAccess (fun i j : Int => decide (i = j))
          BinaryPredicate.bool FourConnect.GetNeighbour (2, 2) = .ok res ∧
        res.length = (cur2 - labelStart).toNat ∧
        ∀ comp ∈ res, comp ≠ [] :=
  ⟨fun _ => rfl, Or.inl rfl, by norm_num,
    find_components_nonempty_count SquareBracketAccess
      (fun i j : Int => decide (i = j)) BinaryPredicate.bool
      (fun b : Bool => b) FourConnect.GetNeighbour (2, 2)
      (fun _ => rfl) (Or.inl rfl) (by norm_num) (by norm_num)⟩

/-- C9: labels are assigned at enqueue time (`visitNeighbours` and the
seed branch of `markLoop` write the label in the same step that pushes the
coordinate) and only NOLABEL coordinates are ever pushed.  Consequently,
over one whole `find` scan the ghost enqueue trace of `markLoopT` — which
provably projects to the uninstrumented `markLoop` — lists every
coordinate at most once (second conjunct), and a Label Grid slot that
holds a real label is never reset or overwritten from any reachable
intermediate state of the scan (first conjunct). -/
theorem find_enqueue_once_no_overwrite {ImgType α : Type}
    (access : ImgType → Int → Int → α) (img : ImgType)
    (pred : α → Except CCError Bool) (classify : α → Bool)
    (connect : IntPair → List IntPair) (size : IntPair)
    (hp : ∀ v, pred v = .ok (classify v)) :
    (∀ (coords : List IntPair) (ls : Quick2DSizeT) (currentLabel : Int)
       (hl : NOLABEL < currentLabel) (hwf : LSWF size ls)
       (ls2 : Quick2DSizeT) (cur2 : Int),
       (∀ p ∈ coords, ValidPos size p) →
       markLoop access img pred connect size coords ls currentLabel hl hwf =
         .ok (ls2, cur2) →
       ∀ x : IntPair, ValidPos size x → ls.get x.1 x.2 ≠ NOLABEL →
         ls2.get x.1 x.2 = ls.get x.1 x.2) ∧
    ∃ (ls2 : Quick2DSizeT) (cur2 : Int) (tr : List IntPair),
      markLoopT access img pred connect size (rowMajor size)
        (Quick2DSizeT.new size.1 size.2) labelStart NOLABEL_lt_labelStart
        (LSWF_new size) [] = .ok (ls2, cur2, tr) ∧
      markLoop access img pred connect size (rowMajor size)
        (Quick2DSizeT.new size.1 size.2) labelStart NOLABEL_lt_labelStart
        (LSWF_new size) = .ok (ls2, cur2) ∧
      tr.Nodup := by
  constructor
  · intro coords ls cur hl hwf ls2 cur2 hcoords h
    exact markLoop_mono access img pred connect size hcoords h
  · obtain ⟨⟨ls2, cur2, tr⟩, hml⟩ :=
      markLoopT_total access img pred classify connect size hp

    refine ⟨ls2, cur2, tr, hml,
      markLoopT_proj access img pred connect size hml, ?_⟩
    exact (markLoopT_trace access img pred connect size
      (fun p hp2 => mem_rowMajor.mp hp2) hml
      ⟨fun x hx => absurd hx (List.not_mem_nil x), List.nodup_nil⟩).2

/-- Witness for C9 at the concrete 2×2 diagonal boolean image,
4-connectivity. -/
theorem find_enqueue_once_no_overwrite_witness :
    (∀ v : Bool, BinaryPredicate.bool v = .ok ((fun b : Bool => b) v)) ∧
    ((∀ (coords : List IntPair) (ls : Quick2DSizeT) (currentLabel : Int)
       (hl : NOLABEL < currentLabel) (hwf : LSWF (2, 2) ls)
       (ls2 : Quick2DSizeT) (cur2 : Int),
       (∀ p ∈ coords, ValidPos (2, 2) p) →
       markLoop SquareBracketAccess (fun i j : Int => decide (i = j))
         BinaryPredicate.bool FourConnect.GetNeighbour (2, 2) coords ls
         currentLabel hl hwf = .ok (ls2, cur2) →
       ∀ x : IntPair, ValidPos (2, 2) x → ls.get x.1 x.2 ≠ NOLABEL →
         ls2.get x.1 x.2 = ls.get x.1 x.2) ∧
    ∃ (ls2 : Quick2DSizeT) (cur2 : Int) (tr : List IntPair),
      markLoopT SquareBracketAccess (fun i j : Int => decide (i = j))
        BinaryPredicate.bool FourConnect.GetNeighbour (2, 2) (rowMajor (2, 2))
        (Quick2DSizeT.new 2 2) labelStart NOLABEL_lt_labelStart
        (LSWF_new (2, 2)) [] = .ok (ls2, cur2, tr) ∧
      markLoop SquareBracketAccess (fun i j : Int => decide (i = j))
        BinaryPredicate.bool FourConnect.GetNeighbour (2, 2) (rowMajor (2, 2))
        (Quick2DSizeT.new 2 2) labelStart NOLABEL_lt_labelStart
        (LSWF_new (2, 2)) = .ok (ls2, cur2) ∧
      tr.Nodup) :=
  ⟨fun _ => rfl,
    find_enqueue_once_no_overwrite SquareBracketAccess
      (fun i j : Int => decide (i = j)) BinaryPredicate.bool
      (fun b : Bool => b) FourConnect.GetNeighbour (2, 2) (fun _ => rfl)⟩

/-- Witness for C7's amended theorem at rows = 2, cols = 3. -/
theorem quick2d_new_amended_witness :
    (1 : Int) ≤ 2 ∧ (1 : Int) ≤ 3 ∧
    ((Quick2DSizeT.new 2 3).data.length = ((2 : Int) * 3).toNat ∧
      ∀ i j : Int, (Quick2DSizeT.new 2 3).get i j = NOLABEL) ∧
    ∀ {ImgType α : Type} (access : ImgType → Int → Int → α) (img : ImgType)
      (pred : α → Except CCError Bool) (connect : IntPair → List IntPair)
      (size : IntPair), size.1 < 1 ∨ size.2 < 1 →
        find access img pred connect size = .error .invalidDimension :=
  ⟨by norm_num, by norm_num, quick2d_new_amended 2 3 (by norm_num) (by norm_num)⟩

end CCL
